import Mathlib

/-! Citation highlighter: a model of `content_script.js`.

The content script scans the paragraphs of a page, flags the sentences that
look like unsupported facts, wraps them in highlight spans and shows a banner.
This file embeds the script as Lean functions and proves properties of it.

Layout of the model:

* JavaScript strings are lists of UTF-16 code units (`JsString`);
* the regular expressions of the script are terms of a small syntax tree
  (`Re`) run by a backtracking matcher that follows the ECMAScript matching
  rules (ordered alternatives, greedy quantifiers, leftmost match);
* the page is a list of paragraph subtrees (`Node`) plus the auxiliary
  elements the script creates (tooltip, banner, floating indicator);
* what the browser computes (`innerHTML` getter and setter, `innerText`) and
  `Math.random` are parameters of the model (`Host`, `rand`).
-/

namespace Wsh

set_option maxRecDepth 100000
set_option maxHeartbeats 1000000

/-! ## JavaScript strings -/

/-- A UTF-16 code unit. -/
abbrev CodeUnit := Nat

/-- A JavaScript string is a sequence of UTF-16 code units; `length` counts code units. -/
abbrev JsString := List CodeUnit

/-- UTF-16 encoding of one character. -/
def utf16 (c : Char) : JsString :=
  if c.toNat < 0x10000 then [c.toNat]
  else [0xD800 + (c.toNat - 0x10000) / 0x400, 0xDC00 + (c.toNat - 0x10000) % 0x400]

/-- The JavaScript string written by a literal. -/
def str (s : String) : JsString := s.toList.flatMap utf16

/-- ECMAScript `WhiteSpace` and `LineTerminator` code units, the ones `trim` strips. -/
def isTrimSpace (u : CodeUnit) : Bool :=
  u = 0x09 || u = 0x0A || u = 0x0B || u = 0x0C || u = 0x0D || u = 0x20 || u = 0xA0 ||
  u = 0x1680 || (0x2000 ≤ u && u ≤ 0x200A) || u = 0x2028 || u = 0x2029 || u = 0x202F ||
  u = 0x205F || u = 0x3000 || u = 0xFEFF

/-- `String.prototype.trim`. -/
def trim (s : JsString) : JsString :=
  ((s.dropWhile isTrimSpace).reverse.dropWhile isTrimSpace).reverse

/-- `String.prototype.indexOf`; `none` stands for `-1`. -/
def indexOf : JsString → JsString → Option Nat
  | [], pat => if pat.isPrefixOf [] then some 0 else none
  | x :: text, pat =>
    if pat.isPrefixOf (x :: text) then some 0 else (indexOf text pat).map (· + 1)

/-- `String.prototype.includes`. -/
def includes (text pat : JsString) : Bool := (indexOf text pat).isSome

/-- `String.prototype.substr(start, length)` for a non-negative start. -/
def substr (text : JsString) (start len : Nat) : JsString := (text.drop start).take len

/-- Lower-case form of one code unit, as far as ASCII results go: `A`-`Z`, the
Kelvin sign (to `k`) and capital I with dot above (to `i` followed by a
combining dot) are the only code units whose lower-case form has an ASCII
letter. Every other code unit is kept: its lower-case form has no ASCII
code unit, and the script only searches the result for an ASCII phrase. -/
def lowerUnit (u : CodeUnit) : JsString :=
  if 0x41 ≤ u ∧ u ≤ 0x5A then [u + 0x20]
  else if u = 0x212A then [0x6B]
  else if u = 0x130 then [0x69, 0x307]
  else [u]

/-- `String.prototype.toLowerCase` (see `lowerUnit`). -/
def toLowerCase (s : JsString) : JsString := s.flatMap lowerUnit

/-! ## Regular expressions -/

/-- The regular-expression syntax the script uses. Capturing and non-capturing
groups are plain grouping here: no replacement pattern of the script refers to
a capture. -/
inductive Re where
  /-- a pattern character -/
  | unit (c : CodeUnit)
  /-- a character class or class escape, given by its membership test -/
  | cls (p : CodeUnit → Bool)
  /-- the assertion `\b` -/
  | wordBoundary
  /-- concatenation -/
  | cat (a b : Re)
  /-- disjunction `a|b` -/
  | alt (a b : Re)
  /-- greedy quantifier `{lo,hi}`; `hi = none` is unbounded -/
  | rep (r : Re) (lo : Nat) (hi : Option Nat)
  /-- the empty pattern -/
  | empty

/-- A position in the input: the code unit just before it (if any) and the rest of the input. -/
abbrev Pos := Option CodeUnit × JsString

/-- `\w`. -/
def isWordUnit (u : CodeUnit) : Bool :=
  (0x61 ≤ u && u ≤ 0x7A) || (0x41 ≤ u && u ≤ 0x5A) || (0x30 ≤ u && u ≤ 0x39) || u = 0x5F

/-- `\d`. -/
def isDigit (u : CodeUnit) : Bool := 0x30 ≤ u && u ≤ 0x39

/-- `IsWordChar` at an input edge or code unit. -/
def isWordOpt : Option CodeUnit → Bool
  | none => false
  | some u => isWordUnit u

/-- `Canonicalize` for the `i` flag without the `u` flag: upper-casing. A code
unit above 127 never canonicalizes to an ASCII one, so it is kept; the
patterns of the script are ASCII. -/
def canonicalize (u : CodeUnit) : CodeUnit :=
  if 0x61 ≤ u ∧ u ≤ 0x7A then u - 0x20 else u

/-- Does input code unit `x` match pattern character `c`? -/
def unitMatches (ignoreCase : Bool) (x c : CodeUnit) : Bool :=
  if ignoreCase then canonicalize x = canonicalize c else x = c

/-- `RepeatMatcher`: the end positions of a greedy quantifier over `step`, in
backtracking order. An iteration that consumes nothing once the minimum is
reached is rejected, as in ECMAScript. -/
def repEnds (step : Pos → List Pos) : Nat → Nat → Option Nat → Pos → List Pos
  | 0, _, _, _ => []
  | fuel + 1, lo, hi, x =>
    if hi = some 0 then [x]
    else
      let iter := (step x).flatMap fun y =>
        if lo = 0 ∧ y.2.length = x.2.length then []
        else repEnds step fuel (lo - 1) (hi.map (· - 1)) y
      if lo = 0 then iter ++ [x] else iter

/-- The end positions of the matches of a pattern that start at a position, in
backtracking (priority) order. -/
def Re.ends (ignoreCase : Bool) : Re → Pos → List Pos
  | .unit c, x =>
    match x.2 with
    | u :: rest => if unitMatches ignoreCase u c then [(some u, rest)] else []
    | [] => []
  | .cls p, x =>
    match x.2 with
    | u :: rest => if p u then [(some u, rest)] else []
    | [] => []
  | .wordBoundary, x =>
    if isWordOpt x.1 != isWordOpt x.2.head? then [x] else []
  | .cat a b, x => (a.ends ignoreCase x).flatMap (b.ends ignoreCase)
  | .alt a b, x => a.ends ignoreCase x ++ b.ends ignoreCase x
  | .rep r lo hi, x => repEnds (r.ends ignoreCase) (lo + x.2.length + 1) lo hi x
  | .empty, x => [x]

/-- One match: the text skipped before it, the matched text and the position after it. -/
structure Match where
  before : JsString
  matched : JsString
  after : Pos

/-- The leftmost match at or after a position (`RegExpBuiltinExec` from `lastIndex`). -/
def Re.search (ignoreCase : Bool) (re : Re) : Option CodeUnit → JsString → Option Match
  | prev, [] =>
    match re.ends ignoreCase (prev, []) with
    | y :: _ => some ⟨[], [], y⟩
    | [] => none
  | prev, u :: rest =>
    match re.ends ignoreCase (prev, u :: rest) with
    | y :: _ => some ⟨[], (u :: rest).take ((u :: rest).length - y.2.length), y⟩
    | [] => (re.search ignoreCase (some u) rest).map fun m => { m with before := u :: m.before }

/-- `RegExp.prototype.test` for a regular expression without the `g` flag. -/
def Re.test (ignoreCase : Bool) (re : Re) (s : JsString) : Bool :=
  (re.search ignoreCase none s).isSome

/-- The successive matches of a global regular expression, each with the text
between it and the previous match. After an empty match the search resumes one
code unit further, as in `String.prototype.match` and `replace`. -/
def Re.allMatches (ignoreCase : Bool) (re : Re) : Nat → Option CodeUnit → JsString → List Match
  | 0, _, _ => []
  | fuel + 1, prev, s =>
    match re.search ignoreCase prev s with
    | none => []
    | some m =>
      if m.matched = [] then
        match m.after.2 with
        | [] => [m]
        | u :: rest =>
          match re.allMatches ignoreCase fuel (some u) rest with
          | [] => [m]
          | m2 :: ms => m :: { m2 with before := u :: m2.before } :: ms
      else m :: re.allMatches ignoreCase fuel m.after.1 m.after.2

/-- `String.prototype.match` with a global regular expression, `|| []` applied. -/
def Re.matchGlobal (ignoreCase : Bool) (re : Re) (s : JsString) : List JsString :=
  (re.allMatches ignoreCase (s.length + 1) none s).map (·.matched)

/-- `GetSubstitution` for a match without captures: in a replacement pattern
`$$` stands for `$`, `$&` for the matched text, a dollar and a grave accent for
the text before the match, a dollar and an apostrophe for the text after it;
any other `$` is kept. -/
def getSubstitution (matched before after : JsString) : JsString → JsString
  | [] => []
  | [u] => [u]
  | u :: v :: rest =>
    if u = 0x24 then
      if v = 0x24 then 0x24 :: getSubstitution matched before after rest
      else if v = 0x26 then matched ++ getSubstitution matched before after rest
      else if v = 0x60 then before ++ getSubstitution matched before after rest
      else if v = 0x27 then after ++ getSubstitution matched before after rest
      else u :: getSubstitution matched before after (v :: rest)
    else u :: getSubstitution matched before after (v :: rest)

/-- The input with each listed match replaced. `f` receives the matched text,
the whole text before the match and the whole text after it. -/
def replaceMatches (f : JsString → JsString → JsString → JsString) :
    JsString → JsString → List Match → JsString
  | _, s, [] => s
  | consumed, _, m :: ms =>
    m.before ++ f m.matched (consumed ++ m.before) m.after.2 ++
      replaceMatches f (consumed ++ m.before ++ m.matched) m.after.2 ms

/-- `String.prototype.replace` with a regular expression without the `g` flag
and a replacement pattern: only the first match is replaced. -/
def Re.replaceFirst (ignoreCase : Bool) (re : Re) (s replacement : JsString) : JsString :=
  match re.search ignoreCase none s with
  | none => s
  | some m => m.before ++ getSubstitution m.matched m.before m.after.2 replacement ++ m.after.2

/-- `String.prototype.replace` with a global regular expression and a replacement pattern. -/
def Re.replaceGlobal (ignoreCase : Bool) (re : Re) (s replacement : JsString) : JsString :=
  replaceMatches (fun matched before after => getSubstitution matched before after replacement)
    [] s (re.allMatches ignoreCase (s.length + 1) none s)

/-- `String.prototype.replace` with a global regular expression and a replacer function of the match. -/
def Re.replaceGlobalWith (ignoreCase : Bool) (re : Re) (s : JsString)
    (replacer : JsString → JsString) : JsString :=
  replaceMatches (fun matched _ _ => replacer matched) [] s
    (re.allMatches ignoreCase (s.length + 1) none s)

/-- The pattern that matches a text literally, one pattern character per code unit. -/
def Re.lit : JsString → Re
  | [] => .empty
  | u :: rest => .cat (.unit u) (Re.lit rest)

/-- `SyntaxCharacter` of the pattern grammar: one of `^ $ \ . * + ? ( ) [ ] { } |`. -/
def isSyntaxChar (u : CodeUnit) : Bool :=
  u = 0x5E || u = 0x24 || u = 0x5C || u = 0x2E || u = 0x2A || u = 0x2B || u = 0x3F ||
  u = 0x28 || u = 0x29 || u = 0x5B || u = 0x5D || u = 0x7B || u = 0x7D || u = 0x7C

/-- `new RegExp(pattern)` for the patterns made of pattern characters and of
identity escapes of syntax characters. A code unit that is not a syntax
character stands for itself; a backslash followed by a syntax character stands
for that character. `none`: the pattern uses a syntax character unescaped (or
ends in a backslash, a `SyntaxError`), which is outside this fragment. -/
def RegExp : JsString → Option Re
  | [] => some .empty
  | u :: rest =>
    if u = 0x5C then
      match rest with
      | [] => none
      | v :: rest2 => if isSyntaxChar v then (RegExp rest2).map (Re.cat (.unit v)) else none
    else if isSyntaxChar u then none
    else (RegExp rest).map (Re.cat (.unit u))

/-! ## The regular expressions of the script -/

/-- A sequence of patterns. -/
def Re.seq : List Re → Re
  | [] => .empty
  | [r] => r
  | r :: rs => .cat r (Re.seq rs)

/-- A disjunction of patterns, first alternative first. -/
def Re.oneOf : Re → List Re → Re
  | r, [] => r
  | r, r2 :: rs => .alt r (Re.oneOf r2 rs)

/-- Is the code unit one of `.`, `!`, `?`. -/
def isTerminator (u : CodeUnit) : Bool := u = 0x2E || u = 0x21 || u = 0x3F

/-- The pattern `/[^.!?]+[.!?]?/g` of `splitSentences`. -/
def sentenceRegex : Re :=
  .cat (.rep (.cls fun u => !isTerminator u) 1 none) (.rep (.cls isTerminator) 0 (some 1))

/-- The pattern `\d`. -/
def digit : Re := .cls isDigit

/-- The pattern `numRegex`:
`/(\d{1,4}|\b\d{1,3}(?:,\d{3})+\b|\b\d+%|\b(18|19|20)\d{2}\b)/`. -/
def numRegex : Re :=
  Re.oneOf (.rep digit 1 (some 4))
    [ Re.seq [.wordBoundary, .rep digit 1 (some 3),
        .rep (.cat (.unit 0x2C) (.rep digit 3 (some 3))) 1 none, .wordBoundary],
      Re.seq [.wordBoundary, .rep digit 1 none, .unit 0x25],
      Re.seq [.wordBoundary,
        Re.oneOf (Re.lit (str "18")) [Re.lit (str "19"), Re.lit (str "20")],
        .rep digit 2 (some 2), .wordBoundary] ]

/-- The pattern `cues`, built with the flag `i` from the one element of `cueWords`:
`\b(study|studies|research|reported|found|estimated|estimate|survey|according to|percent|%)\b`. -/
def cues : Re :=
  Re.seq [.wordBoundary,
    Re.oneOf (Re.lit (str "study"))
      [Re.lit (str "studies"), Re.lit (str "research"), Re.lit (str "reported"),
       Re.lit (str "found"), Re.lit (str "estimated"), Re.lit (str "estimate"),
       Re.lit (str "survey"), Re.lit (str "according to"), Re.lit (str "percent"),
       Re.lit (str "%")],
    .wordBoundary]

/-- The pattern `/\[\d+\]/` of `hasReferenceInParagraph`. -/
def bracketRegex : Re := Re.seq [.unit 0x5B, .rep digit 1 none, .unit 0x5D]

/-- The pattern `/citation needed/i`. -/
def citationNeededRegex : Re := Re.lit (str "citation needed")

/-- The pattern `/\[citation needed\]/gi`. -/
def markerRegex : Re := Re.lit (str "[citation needed]")

/-- The pattern `/[.*+?^${}()|[\]\\]/g` of the escaping step: the class holds
exactly the syntax characters. -/
def escapeRegex : Re := .cls isSyntaxChar

/-! ## The page -/

/-- A node of the document tree below a paragraph: a text node or an element
with its tag name, attributes and children. -/
inductive Node where
  | text (data : JsString)
  | elem (tag : JsString) (attrs : List (JsString × JsString)) (children : List Node)

/-- ASCII whitespace, the separator of class names in a `class` attribute. -/
def isAsciiSpace (u : CodeUnit) : Bool :=
  u = 0x09 || u = 0x0A || u = 0x0C || u = 0x0D || u = 0x20

/-- The whitespace-separated tokens of an attribute value; `cur` holds the
current token, last code unit first. -/
def tokensFrom (cur : JsString) : JsString → List JsString
  | [] => if cur = [] then [] else [cur.reverse]
  | u :: rest =>
    if isAsciiSpace u then
      if cur = [] then tokensFrom [] rest else cur.reverse :: tokensFrom [] rest
    else tokensFrom (u :: cur) rest

/-- The value of an attribute, if the element has it. -/
def getAttribute (attrs : List (JsString × JsString)) (name : JsString) : Option JsString :=
  (attrs.find? fun a => a.1 = name).map (·.2)

/-- Does an element with these attributes have the class? -/
def hasClass (attrs : List (JsString × JsString)) (cls : JsString) : Bool :=
  match getAttribute attrs (str "class") with
  | none => false
  | some v => (tokensFrom [] v).contains cls

/-- The constant `HIGHLIGHT_CLASS`. -/
def HIGHLIGHT_CLASS : JsString := str "wsh-highlight"

/-- Is the node an element matched by the selector `.wsh-highlight`? -/
def Node.isHighlight : Node → Bool
  | .text _ => false
  | .elem _ attrs _ => hasClass attrs HIGHLIGHT_CLASS

mutual
/-- `Node.textContent`. -/
def Node.textContent : Node → JsString
  | .text d => d
  | .elem _ _ cs => textContentList cs
/-- The concatenated `textContent` of a list of sibling nodes. -/
def textContentList : List Node → JsString
  | [] => []
  | n :: ns => n.textContent ++ textContentList ns
end

mutual
/-- Does the subtree hold an element matched by `sup.reference`? -/
def Node.hasSupReference : Node → Bool
  | .text _ => false
  | .elem tag attrs cs =>
    (tag = str "sup" && hasClass attrs (str "reference")) || hasSupReferenceList cs
/-- `querySelector('sup.reference')` finds something among the descendants of a paragraph. -/
def hasSupReferenceList : List Node → Bool
  | [] => false
  | n :: ns => n.hasSupReference || hasSupReferenceList ns
end

mutual
/-- Does the subtree hold an element matched by `.wsh-highlight`? -/
def Node.hasHighlight : Node → Bool
  | .text _ => false
  | .elem _ attrs cs => hasClass attrs HIGHLIGHT_CLASS || hasHighlightList cs
/-- `querySelector('.wsh-highlight')` finds something among the descendants of a paragraph. -/
def hasHighlightList : List Node → Bool
  | [] => false
  | n :: ns => n.hasHighlight || hasHighlightList ns
end

mutual
/-- The subtree after the `forEach` of `clearHighlights`: every highlight
element that is not inside another one is replaced in its parent by a text
node holding its `textContent`. (The highlights nested in it are replaced too,
but inside the subtree that has just been detached from the page.) -/
def Node.unwrap : Node → Node
  | .text d => .text d
  | .elem tag attrs cs =>
    if hasClass attrs HIGHLIGHT_CLASS then .text (textContentList cs)
    else .elem tag attrs (unwrapList cs)
/-- The children of a paragraph after the `forEach` of `clearHighlights`. -/
def unwrapList : List Node → List Node
  | [] => []
  | n :: ns => n.unwrap :: unwrapList ns
end

/-- What the browser computes for a paragraph element `p`: these come from the
HTML parser, the HTML serializer and the rendering of the page, not from the
script. -/
structure Host where
  /-- the getter of `p.innerHTML`: the markup of the children -/
  getInnerHTML : List Node → JsString
  /-- the setter of `p.innerHTML`: the children parsed from a markup string -/
  setInnerHTML : JsString → List Node
  /-- `p.innerText`: the rendered plain text of the children -/
  innerText : List Node → JsString
  /-- the value of the `style` attribute of an element after
  `style.cursor = 'pointer'`, given its value before, if it had one -/
  cursorStyle : Option JsString → JsString

/-- The state of the page that the script reads and writes. Each paragraph
(`p` element) is given by its children; paragraphs do not nest and highlight
elements occur inside paragraphs only. -/
structure Doc where
  /-- the children of each `p` element, in document order -/
  paragraphs : List (List Node)
  /-- the number of elements of class `wsh-tooltip` -/
  tooltips : Nat
  /-- the `innerHTML` of the element with id `wsh-missing-info-banner`, if there is one -/
  banner : Option JsString
  /-- is there an element with id `wsh-floating-indicator`? -/
  indicator : Bool
  /-- `document.body.style.marginTop` -/
  marginTop : JsString
  /-- `window.location.hostname` -/
  hostname : JsString

/-- The attributes of an element after `style.cursor = 'pointer'`: a `style`
attribute is added after the others, or the one there is rewritten. -/
def setCursorPointer (host : Host) (attrs : List (JsString × JsString)) :
    List (JsString × JsString) :=
  match getAttribute attrs (str "style") with
  | none => attrs ++ [(str "style", host.cursorStyle none)]
  | some v => attrs.map fun a => if a.1 = str "style" then (a.1, host.cursorStyle (some v)) else a

mutual
/-- The subtree after `span.style.cursor = 'pointer'` on each of its highlight elements. -/
def Node.setPointer (host : Host) : Node → Node
  | .text d => .text d
  | .elem tag attrs cs =>
    .elem tag (if hasClass attrs HIGHLIGHT_CLASS then setCursorPointer host attrs else attrs)
      (setPointerList host cs)
/-- The children of a paragraph after `span.style.cursor = 'pointer'` on each highlight element. -/
def setPointerList (host : Host) : List Node → List Node
  | [] => []
  | n :: ns => n.setPointer host :: setPointerList host ns
end

mutual
/-- The text contents of the highlight elements of a subtree, in document order. -/
def Node.highlightTexts : Node → List JsString
  | .text _ => []
  | .elem _ attrs cs =>
    (if hasClass attrs HIGHLIGHT_CLASS then [textContentList cs] else []) ++ highlightTextsList cs
/-- The text contents of the highlight elements among the descendants of a paragraph. -/
def highlightTextsList : List Node → List JsString
  | [] => []
  | n :: ns => n.highlightTexts ++ highlightTextsList ns
end

/-! ## The script -/

/-- `clearHighlights()`: unwraps the highlight spans and removes the tooltips. -/
def clearHighlights (d : Doc) : Doc :=
  { d with paragraphs := d.paragraphs.map unwrapList, tooltips := 0 }

/-- `splitSentences(text)`. -/
def splitSentences (text : JsString) : List JsString :=
  sentenceRegex.matchGlobal false text

/-- `hasReferenceInParagraph(paragraphNode, sentenceText)`. -/
def hasReferenceInParagraph (host : Host) (p : List Node) (sentenceText : JsString) : Bool :=
  if hasSupReferenceList p then true
  else
    let supText := toLowerCase (host.innerText p)
    if includes supText (str "citation needed") then false
    else
      match indexOf (host.innerText p) (trim sentenceText) with
      | none => false
      | some idx =>
        let windowText :=
          substr (host.innerText p) (max 0 ((idx : Int) - 40)).toNat (sentenceText.length + 80)
        if bracketRegex.test false windowText then true else false

/-- The constant `needsHeuristic` of the sentence loop. -/
def needsHeuristic (trimmed : JsString) : Bool :=
  (numRegex.test false trimmed || cues.test true trimmed) && decide (trimmed.length > 20)

/-- The constant `hasCitationNeeded` of the sentence loop. -/
def hasCitationNeeded (host : Host) (p : List Node) (trimmed : JsString) : Bool :=
  citationNeededRegex.test true (host.innerText p) && includes (host.innerText p) trimmed

/-- The condition under which the sentence loop flags a sentence. -/
def isFlagged (host : Host) (p : List Node) (trimmed : JsString) : Bool :=
  (needsHeuristic trimmed && !hasReferenceInParagraph host p trimmed) ||
    hasCitationNeeded host p trimmed

/-- The span written around a `[citation needed]` marker. -/
def markerSpan (matched : JsString) : JsString :=
  str "<span class=\"" ++ HIGHLIGHT_CLASS ++ str "\" title=\"Missing citation\">" ++ matched ++
    str "</span>"

/-- The opening tag of the span written around a flagged sentence. -/
def sentenceSpanOpen (dataId : JsString) : JsString :=
  str "<span class=\"" ++ HIGHLIGHT_CLASS ++ str "\" data-wsh-id=\"" ++ dataId ++
    str "\" title=\"Click to search sources\">"

/-- The constant `replacement` of the sentence loop. -/
def sentenceReplacement (dataId trimmed : JsString) : JsString :=
  sentenceSpanOpen dataId ++ trimmed ++ str "</span>"

/-- The constant `esc`: `trimmed.replace(/[.*+?^${}()|[\]\\]/g, '\\$&')`. -/
def escapeRegExp (trimmed : JsString) : JsString :=
  escapeRegex.replaceGlobal false trimmed (str "\\$&")

/-- The digit of value `d` in base 36, as `Number.prototype.toString(36)` writes it. -/
def base36Digit (d : Fin 36) : CodeUnit :=
  if d.val < 10 then 0x30 + d.val else 0x61 + (d.val - 10)

/-- The constant `dataId`: `'wsh-' + Math.random().toString(36).slice(2, 9)`.
`digits` are the base-36 digits that `toString(36)` prints after `0.`; the
slice keeps at most seven of them. -/
def makeDataId (digits : List (Fin 36)) : JsString :=
  str "wsh-" ++ (digits.take 7).map base36Digit

/-- The body of `sentences.forEach` on the running pair of `html` and
`flaggedCount`. `rand n` gives the fraction digits of the value that
`Math.random()` returns on its call number `n`; the script makes one call
per flagged sentence. `none`: `new RegExp` threw. -/
def scanSentence (host : Host) (rand : Nat → List (Fin 36)) (p : List Node)
    (st : JsString × Nat) (s : JsString) : Option (JsString × Nat) :=
  let trimmed := trim s
  if trimmed = [] then some st
  else if isFlagged host p trimmed then
    let esc := escapeRegExp trimmed
    let dataId := makeDataId (rand st.2)
    let replacement := sentenceReplacement dataId trimmed
    (RegExp esc).map fun re => (re.replaceFirst false st.1 replacement, st.2 + 1)
  else some st

/-- `sentences.forEach` of one paragraph. -/
def scanSentences (host : Host) (rand : Nat → List (Fin 36)) (p : List Node) :
    JsString × Nat → List JsString → Option (JsString × Nat)
  | st, [] => some st
  | st, s :: rest =>
    match scanSentence host rand p st s with
    | none => none
    | some st2 => scanSentences host rand p st2 rest

/-- The body of `paragraphs.forEach`: the new children of the paragraph and the
running `flaggedCount`. -/
def scanParagraph (host : Host) (rand : Nat → List (Fin 36)) (flaggedCount : Nat)
    (p : List Node) : Option (List Node × Nat) :=
  let html := host.getInnerHTML p
  let html := markerRegex.replaceGlobalWith true html markerSpan
  let sentences := splitSentences (host.innerText p)
  if sentences.length = 0 then some (host.setInnerHTML html, flaggedCount)
  else
    (scanSentences host rand p (html, flaggedCount) sentences).map fun st =>
      (host.setInnerHTML st.1, st.2)

/-- `paragraphs.forEach`. -/
def scanParagraphs (host : Host) (rand : Nat → List (Fin 36)) :
    Nat → List (List Node) → Option (List (List Node) × Nat)
  | flaggedCount, [] => some ([], flaggedCount)
  | flaggedCount, p :: ps =>
    match scanParagraph host rand flaggedCount p with
    | none => none
    | some (p2, n) =>
      (scanParagraphs host rand n ps).map fun r => (p2 :: r.1, r.2)

/-- The `innerHTML` given to the banner. -/
def bannerHTML (hostname : JsString) (flaggedCount : Nat) : JsString :=
  str "<span style=\"vertical-align:middle;display:inline-block;margin-right:8px;\">ðŸ›ˆ</span>" ++
    str "Potential missing information detected" ++
    (if includes hostname (str "wikipedia.org") then str " in this Wikipedia article"
     else str " (may be missing Wikipedia references)") ++
    str "! (" ++ str (toString flaggedCount) ++ str " sentence" ++
    (if flaggedCount > 1 then str "s" else []) ++ str " flagged)"

/-- `scanAndHighlight()`: the page after the scan and the returned `count`.
`none`: the scan threw. Of the `forEach` over the highlight spans the pointer
cursor is kept; the click listeners are not part of the state. -/
def scanAndHighlight (host : Host) (rand : Nat → List (Fin 36)) (d : Doc) : Option (Doc × Nat) :=
  let d1 := clearHighlights d
  let d2 := { d1 with banner := none }
  match scanParagraphs host rand 0 d2.paragraphs with
  | none => none
  | some (ps, flaggedCount) =>
    let d3 := { d2 with paragraphs := ps.map (setPointerList host) }
    if flaggedCount > 0 then
      let firstHighlight := d3.paragraphs.any hasHighlightList
      some ({ d3 with
                banner := some (bannerHTML d3.hostname flaggedCount)
                marginTop := str "50px"
                indicator := d3.indicator || firstHighlight },
            flaggedCount)
    else
      some ({ d3 with marginTop := [], indicator := false }, flaggedCount)

/-! ## A host for plain pages

To run the script on concrete pages the model needs a browser. `plainHost`
is the browser on the pages whose paragraphs hold text and properly nested
elements with double-quoted attribute values, with no `&`, `<` or `>` in the
text, no collapsible white space and no `style` attribute: there the rendered
text is the text content, and parsing and serializing are the functions
below. As in HTML, a `<` that starts no tag is text and an end tag met while
no element is open is ignored. -/

/-- A token of markup. -/
inductive Token where
  | text (data : JsString)
  | startTag (tag : JsString) (attrs : List (JsString × JsString))
  | endTag (tag : JsString)

/-- The attributes of a start tag and the input after its `>`; `none` if the tag is not closed. -/
def readAttrs : Nat → JsString → List (JsString × JsString) →
    Option (List (JsString × JsString) × JsString)
  | 0, _, _ => none
  | fuel + 1, s, acc =>
    match s.dropWhile isAsciiSpace with
    | [] => none
    | u :: rest =>
      if u = 0x3E then some (acc.reverse, rest)
      else
        let name := (u :: rest).takeWhile (· ≠ 0x3D)
        match (u :: rest).dropWhile (· ≠ 0x3D) with
        | _ :: q :: rest2 =>
          if q = 0x22 then
            match rest2.dropWhile (· ≠ 0x22) with
            | _ :: rest3 => readAttrs fuel rest3 ((name, rest2.takeWhile (· ≠ 0x22)) :: acc)
            | [] => none
          else none
        | _ => none

/-- The tag that starts after a `<` and the input after it; `none` if there is no tag there. -/
def readTag (s : JsString) : Option (Token × JsString) :=
  match s with
  | [] => none
  | u :: rest =>
    if u = 0x2F then
      match rest.dropWhile (· ≠ 0x3E) with
      | _ :: rest2 => some (.endTag (rest.takeWhile (· ≠ 0x3E)), rest2)
      | [] => none
    else
      let name := s.takeWhile fun c => !isAsciiSpace c && c ≠ 0x3E
      if name = [] ∨ ¬ isWordUnit u then none
      else
        (readAttrs (s.length + 1) (s.dropWhile fun c => !isAsciiSpace c && c ≠ 0x3E) []).map
          fun r => (.startTag name r.1, r.2)

/-- The tokens of a markup string. -/
def tokenize : Nat → JsString → List Token
  | 0, _ => []
  | _ + 1, [] => []
  | fuel + 1, u :: rest =>
    if u = 0x3C then
      match readTag rest with
      | some (tok, rest2) => tok :: tokenize fuel rest2
      | none => .text [u] :: tokenize fuel rest
    else
      .text ((u :: rest).takeWhile (· ≠ 0x3C)) :: tokenize fuel ((u :: rest).dropWhile (· ≠ 0x3C))

/-- The sibling nodes read from the tokens up to the end tag that closes their
parent, and the tokens after that end tag. `depth` counts the elements that
are open; an end tag met while none is open is ignored. -/
def buildNodes : Nat → Nat → List Token → List Node × List Token
  | 0, _, _ => ([], [])
  | _ + 1, _, [] => ([], [])
  | fuel + 1, depth, .text d :: ts =>
    let r := buildNodes fuel depth ts
    (.text d :: r.1, r.2)
  | fuel + 1, 0, .endTag _ :: ts => buildNodes fuel 0 ts
  | _ + 1, _ + 1, .endTag _ :: ts => ([], ts)
  | fuel + 1, depth, .startTag tag attrs :: ts =>
    let inner := buildNodes fuel (depth + 1) ts
    let r := buildNodes fuel depth inner.2
    (.elem tag attrs inner.1 :: r.1, r.2)

/-- Markup of an attribute list. -/
def serializeAttrs : List (JsString × JsString) → JsString
  | [] => []
  | a :: rest => str " " ++ a.1 ++ str "=\"" ++ a.2 ++ str "\"" ++ serializeAttrs rest

mutual
/-- Markup of a node. -/
def Node.serialize : Node → JsString
  | .text d => d
  | .elem tag attrs cs =>
    str "<" ++ tag ++ serializeAttrs attrs ++ str ">" ++ serializeList cs ++ str "</" ++ tag ++
      str ">"
/-- Markup of a list of sibling nodes. -/
def serializeList : List Node → JsString
  | [] => []
  | n :: ns => n.serialize ++ serializeList ns
end

/-- The browser on plain pages. -/
def plainHost : Host where
  getInnerHTML := serializeList
  setInnerHTML := fun html =>
    (buildNodes (html.length + 1) 0 (tokenize (html.length + 1) html)).1
  innerText := textContentList
  cursorStyle := fun old =>
    match old with
    | none => str "cursor: pointer;"
    | some v => v ++ str " cursor: pointer;"

/-- A page with the given paragraphs and nothing else of the script on it. -/
def plainPage (paragraphs : List (List Node)) : Doc :=
  { paragraphs := paragraphs, tooltips := 0, banner := none, indicator := false,
    marginTop := [], hostname := str "example.org" }

/-! ## Vocabulary of the specification -/

/-- ASCII lower-casing of one code unit. -/
def asciiLower (u : CodeUnit) : CodeUnit :=
  if 0x41 ≤ u ∧ u ≤ 0x5A then u + 0x20 else u

/-- The text contains the (lower-case) phrase, in any letter case. -/
def ContainsIgnoringCase (text phrase : JsString) : Prop :=
  ∃ pre mid post, text = pre ++ mid ++ post ∧ mid.map asciiLower = phrase

/-- The text contains a `[` followed by one or more digits followed by a `]`. -/
def HasBracketNumber (w : JsString) : Prop :=
  ∃ pre ds post, ds ≠ [] ∧ (∀ d ∈ ds, isDigit d = true) ∧ w = pre ++ 0x5B :: ds ++ 0x5D :: post

/-- The first occurrence of `pat` in `text` starts at offset `i`. -/
def FirstOccurrenceAt (text pat : JsString) (i : Nat) : Prop :=
  (∃ pre post, text = pre ++ pat ++ post ∧ pre.length = i) ∧
    ∀ pre post, text = pre ++ pat ++ post → i ≤ pre.length

/-- The trimmed texts of the sentences of a paragraph that the scan flags: the
sentences segmented from the plain text, trimmed, the empty ones dropped,
for which `(needsHeuristic AND NOT hasReference) OR explicitMarker` holds. -/
def flaggedSentences (host : Host) (p : List Node) : List JsString :=
  ((splitSentences (host.innerText p)).map trim).filter fun t =>
    t ≠ [] && isFlagged host p t

/-- The sentences of a text read in one pass from left to right: a sentence
is a maximal run of code units other than `.`, `!` and `?`, together with the
terminator that follows it if there is one; a terminator that follows no such
run belongs to no sentence. `cur` holds the run being read, last code unit
first. -/
def sentencesFrom (cur : JsString) : JsString → List JsString
  | [] => if cur = [] then [] else [cur.reverse]
  | u :: rest =>
    if isTerminator u then
      if cur = [] then sentencesFrom [] rest else (u :: cur).reverse :: sentencesFrom [] rest
    else sentencesFrom (u :: cur) rest

/-- The number of (paragraph, sentence) pairs that the scan flags. -/
def flaggedPairs (host : Host) (ps : List (List Node)) : Nat :=
  (ps.map fun p => (flaggedSentences host p).length).sum

/-- The highlight span around a sentence text. -/
def sentenceWrapper (dataId t : JsString) : JsString :=
  sentenceSpanOpen dataId ++ t ++ str "</span>"

/-- The markup with the first literal occurrence of the text `t` replaced by
a highlight span around `t`; the markup itself if `t` does not occur in it. -/
def wrapFirstOccurrence (html t dataId : JsString) : JsString :=
  match indexOf html t with
  | none => html
  | some i => html.take i ++ sentenceWrapper dataId t ++ html.drop (i + t.length)

/-- The markup after the flagged sentence texts `ts` have been taken in order,
each wrapped at its first literal occurrence in the markup built so far; the
`Math.random` calls are numbered from `n`. -/
def wrapSentences (rand : Nat → List (Fin 36)) : Nat → JsString → List JsString → JsString
  | _, html, [] => html
  | n, html, t :: ts =>
    wrapSentences rand (n + 1) (wrapFirstOccurrence html t (makeDataId (rand n))) ts

/-- The markup of a paragraph with its `[citation needed]` markers wrapped. -/
def markupWithMarkers (host : Host) (p : List Node) : JsString :=
  markerRegex.replaceGlobalWith true (host.getInnerHTML p) markerSpan

/-- The markup that the scan is to write back to a paragraph: the markup with
the markers wrapped, then the flagged sentences wrapped in order. -/
def markupAfterScan (host : Host) (rand : Nat → List (Fin 36)) (n : Nat) (p : List Node) :
    JsString :=
  wrapSentences rand n (markupWithMarkers host p) (flaggedSentences host p)

/-- The paragraphs parsed from the markup that the scan is to write back;
`n` is the number of sentences flagged in the paragraphs before. -/
def paragraphsAfterScan (host : Host) (rand : Nat → List (Fin 36)) :
    Nat → List (List Node) → List (List Node)
  | _, [] => []
  | n, p :: ps =>
    host.setInnerHTML (markupAfterScan host rand n p) ::
      paragraphsAfterScan host rand (n + (flaggedSentences host p).length) ps

/-- No later replacement lands inside the wrapper `w`: each of the sentence
texts `ts`, taken in order, either does not occur in the markup built so far
or has its first occurrence there wholly before or wholly after an occurrence
of `w`. -/
def StaysClear (rand : Nat → List (Fin 36)) (w : JsString) :
    Nat → JsString → List JsString → Prop
  | _, _, [] => True
  | n, html, t :: ts =>
    (∀ i, indexOf html t = some i →
      ∃ a b, html = a ++ w ++ b ∧ (i + t.length ≤ a.length ∨ a.length + w.length ≤ i)) ∧
    StaysClear rand w (n + 1) (wrapFirstOccurrence html t (makeDataId (rand n))) ts

/-- The escaped form of one code unit: a syntax character gets a backslash. -/
def escapeUnit (u : CodeUnit) : JsString := if isSyntaxChar u then [0x5C, u] else [u]

/-- The position reached from `prev` after reading `consumed`. -/
def prevAfter : Option CodeUnit → JsString → Option CodeUnit
  | prev, [] => prev
  | _, u :: rest => prevAfter (some u) rest

/-! ## Sample pages -/

/-- A sample run of `Math.random`: call `n` returns the fraction `0.abc123` followed by the digit `n mod 36`. -/
def sampleRand : Nat → List (Fin 36) :=
  fun n => [10, 11, 12, 1, 2, 3, ⟨n % 36, Nat.mod_lt _ (by decide)⟩]

/-- The paragraph `Studies show that 42% of users agree. This is fine.` -/
def studiesParagraph : List Node :=
  [.text (str "Studies show that 42% of users agree. This is fine.")]

/-- The paragraph `Revenue grew in 2020 [1].` -/
def revenueParagraph : List Node := [.text (str "Revenue grew in 2020 [1].")]

/-- The paragraph `This fact needs support. [citation needed]` -/
def markerParagraph : List Node := [.text (str "This fact needs support. [citation needed]")]

/-- A paragraph with the phrase and a reference element:
`Water is wet. [citation needed]<sup class="reference">[1]</sup>`. -/
def markerAndSupParagraph : List Node :=
  [.text (str "Water is wet. [citation needed]"),
   .elem (str "sup") [(str "class", str "reference")] [.text (str "[1]")]]

/-- A paragraph whose first word is in bold: `<b>Studies</b> show that 42% of users agree.` -/
def boldParagraph : List Node :=
  [.elem (str "b") [] [.text (str "Studies")], .text (str " show that 42% of users agree.")]

/-- The paragraph `Tickets cost $$$ according to the survey.` -/
def ticketsParagraph : List Node := [.text (str "Tickets cost $$$ according to the survey.")]

/-- The paragraph `Revenue in US$'000 was 5400 in 2020. The 2019 survey found more.` -/
def thousandsParagraph : List Node :=
  [.text (str "Revenue in US$'000 was 5400 in 2020. The 2019 survey found more.")]

/-- The paragraph `Studies show that 42% of users agree. The 2019 survey found more.` -/
def twoSentencesParagraph : List Node :=
  [.text (str "Studies show that 42% of users agree. The 2019 survey found more.")]

/-- The paragraph `Water is wet. [citation needed]. span` -/
def spanParagraph : List Node := [.text (str "Water is wet. [citation needed]. span")]

/-- A sentence of 20 code units with a cue word. -/
def cue20 : JsString := str "A study found it so."

/-- A sentence of 21 code units with a cue word. -/
def cue21 : JsString := str "A study found its so."

/-! ## Strings: basic facts -/

theorem trim_piece (s : JsString) : trim s <:+: s := by
  unfold trim
  have h1 : ((s.dropWhile isTrimSpace).reverse.dropWhile isTrimSpace).reverse <+:
      s.dropWhile isTrimSpace := List.rdropWhile_prefix isTrimSpace (s.dropWhile isTrimSpace)
  exact h1.isInfix.trans (List.dropWhile_suffix _).isInfix

theorem indexOf_eq_none_iff (text pat : JsString) :
    indexOf text pat = none ↔ ¬ pat <:+: text := by
  induction text with
  | nil =>
    simp only [indexOf]
    by_cases h : pat = []
    · subst h; simp
    · have : pat.isPrefixOf [] = false := by
        cases pat with
        | nil => exact absurd rfl h
        | cons a t => rfl
      simp [this, h]
  | cons x text ih =>
    simp only [indexOf]
    rw [List.infix_cons_iff]
    by_cases h : pat.isPrefixOf (x :: text) = true
    · have h2 := List.isPrefixOf_iff_prefix.mp h
      simp [h, h2]
    · have h2 : ¬ pat <+: x :: text := fun hp => h (List.isPrefixOf_iff_prefix.mpr hp)
      simp only [h, Bool.false_eq_true, if_false, Option.map_eq_none', ih, h2, false_or]

theorem includes_iff (text pat : JsString) : includes text pat = true ↔ pat <:+: text := by
  unfold includes
  rw [← not_iff_not, Bool.not_eq_true, Option.not_isSome, Option.isNone_iff_eq_none,
    indexOf_eq_none_iff]

theorem indexOf_eq_some (text pat : JsString) (i : Nat) (h : indexOf text pat = some i) :
    FirstOccurrenceAt text pat i := by
  induction text generalizing i with
  | nil =>
    simp only [indexOf] at h
    split at h
    · rename_i hp
      have hp2 := List.isPrefixOf_iff_prefix.mp hp
      have : pat = [] := List.prefix_nil.mp hp2
      subst this
      injection h with h; subst h
      exact ⟨⟨[], [], rfl, rfl⟩, fun _ _ _ => Nat.zero_le _⟩
    · exact absurd h (by simp)
  | cons x text ih =>
    simp only [indexOf] at h
    split at h
    · rename_i hp
      obtain ⟨t, ht⟩ := List.isPrefixOf_iff_prefix.mp hp
      injection h with h; subst h
      exact ⟨⟨[], t, by simpa using ht.symm, rfl⟩, fun _ _ _ => Nat.zero_le _⟩
    · rename_i hp
      have hp2 : ¬ pat <+: x :: text := fun hq => hp (List.isPrefixOf_iff_prefix.mpr hq)
      cases hj : indexOf text pat with
      | none => simp [hj] at h
      | some j =>
        simp only [hj, Option.map_some', Option.some.injEq] at h
        subst h
        obtain ⟨⟨pre, post, he, hl⟩, hmin⟩ := ih j hj
        refine ⟨⟨x :: pre, post, by simp [he], by simp [hl]⟩, ?_⟩
        intro pre2 post2 he2
        cases pre2 with
        | nil =>
          exact absurd ⟨post2, by simpa using he2.symm⟩ hp2
        | cons y pre3 =>
          simp only [List.cons_append, List.cons.injEq] at he2
          have := hmin pre3 post2 he2.2
          simp only [List.length_cons]
          omega

/-! ## The matcher: positions only move forward -/

theorem repEnds_suffix (step : Pos → List Pos)
    (hstep : ∀ x y, y ∈ step x → y.2 <:+ x.2) :
    ∀ fuel lo hi x y, y ∈ repEnds step fuel lo hi x → y.2 <:+ x.2 := by
  intro fuel
  induction fuel with
  | zero => intro lo hi x y h; simp [repEnds] at h
  | succ fuel ih =>
    intro lo hi x y h
    simp only [repEnds] at h
    split at h
    · simp only [List.mem_singleton] at h; subst h; exact List.suffix_refl _
    · have key : ∀ y, y ∈ ((step x).flatMap fun z =>
            if lo = 0 ∧ z.2.length = x.2.length then []
            else repEnds step fuel (lo - 1) (hi.map (· - 1)) z) → y.2 <:+ x.2 := by
        intro y hy
        simp only [List.mem_flatMap] at hy
        obtain ⟨z, hz, hy⟩ := hy
        split at hy
        · simp at hy
        · exact (ih _ _ _ _ hy).trans (hstep _ _ hz)
      split at h
      · simp only [List.mem_append, List.mem_singleton] at h
        rcases h with h | h
        · exact key _ h
        · subst h; exact List.suffix_refl _
      · exact key _ h

theorem Re.ends_suffix (ic : Bool) (re : Re) : ∀ x y, y ∈ re.ends ic x → y.2 <:+ x.2 := by
  induction re with
  | unit c =>
    intro x y h
    simp only [Re.ends] at h
    split at h
    · rename_i u rest hx
      split at h
      · simp only [List.mem_singleton] at h; subst h; rw [hx]; exact List.suffix_cons _ _
      · simp at h
    · simp at h
  | cls p =>
    intro x y h
    simp only [Re.ends] at h
    split at h
    · rename_i u rest hx
      split at h
      · simp only [List.mem_singleton] at h; subst h; rw [hx]; exact List.suffix_cons _ _
      · simp at h
    · simp at h
  | wordBoundary =>
    intro x y h
    simp only [Re.ends] at h
    split at h
    · simp only [List.mem_singleton] at h; subst h; exact List.suffix_refl _
    · simp at h
  | cat a b iha ihb =>
    intro x y h
    simp only [Re.ends, List.mem_flatMap] at h
    obtain ⟨z, hz, hy⟩ := h
    exact (ihb _ _ hy).trans (iha _ _ hz)
  | alt a b iha ihb =>
    intro x y h
    simp only [Re.ends, List.mem_append] at h
    rcases h with h | h
    · exact iha _ _ h
    · exact ihb _ _ h
  | rep r lo hi ih =>
    intro x y h
    simp only [Re.ends] at h
    exact repEnds_suffix _ ih _ _ _ _ _ h
  | empty =>
    intro x y h
    simp only [Re.ends, List.mem_singleton] at h
    subst h; exact List.suffix_refl _

theorem take_length_sub_of_suffix {s t : JsString} (h : t <:+ s) :
    s.take (s.length - t.length) ++ t = s := by
  obtain ⟨c, rfl⟩ := h
  simp

/-- A match found by `search` splits the input. -/
theorem Re.search_split (ic : Bool) (re : Re) :
    ∀ s prev m, re.search ic prev s = some m → s = m.before ++ m.matched ++ m.after.2 := by
  intro s
  induction s with
  | nil =>
    intro prev m h
    simp only [Re.search] at h
    split at h
    · rename_i y ys hy
      injection h with h; subst h
      have : y ∈ re.ends ic (prev, []) := by rw [hy]; simp
      have hs := Re.ends_suffix ic re _ _ this
      simp only [List.suffix_nil] at hs
      simp [hs]
    · simp at h
  | cons u rest ih =>
    intro prev m h
    simp only [Re.search] at h
    split at h
    · rename_i y ys hy
      injection h with h; subst h
      have : y ∈ re.ends ic (prev, u :: rest) := by rw [hy]; simp
      have hs := Re.ends_suffix ic re _ _ this
      simp only [List.nil_append]
      exact (take_length_sub_of_suffix hs).symm
    · cases hm : re.search ic (some u) rest with
      | none => simp [hm] at h
      | some m2 =>
        simp only [hm, Option.map_some', Option.some.injEq] at h
        subst h
        have := ih _ _ hm
        simp only [List.cons_append, List.cons.injEq, true_and]
        exact this

theorem Re.allMatches_piece (ic : Bool) (re : Re) :
    ∀ fuel prev s m, m ∈ re.allMatches ic fuel prev s → m.matched <:+: s := by
  intro fuel
  induction fuel with
  | zero => intro prev s m h; simp [Re.allMatches] at h
  | succ fuel ih =>
    intro prev s m h
    simp only [Re.allMatches] at h
    split at h
    · simp at h
    · rename_i m1 hm1
      have hsplit := Re.search_split ic re _ _ _ hm1
      have hm1in : m1.matched <:+: s := by
        rw [hsplit]; exact List.infix_append _ _ _
      have hafter : m1.after.2 <:+ s := by
        rw [hsplit]; exact List.suffix_append _ _
      split at h
      · split at h
        · simp only [List.mem_singleton] at h; subst h; exact hm1in
        · rename_i u rest hrest
          split at h
          · simp only [List.mem_singleton] at h; subst h; exact hm1in
          · rename_i m2 ms hms
            simp only [List.mem_cons] at h
            have hrs : rest <:+ s := by
              have : rest <:+ m1.after.2 := by rw [hrest]; exact List.suffix_cons _ _
              exact this.trans hafter
            rcases h with h | h | h
            · subst h; exact hm1in
            · subst h
              have : m2 ∈ re.allMatches ic fuel (some u) rest := by rw [hms]; simp
              exact (ih _ _ _ this).trans hrs.isInfix
            · have : m ∈ re.allMatches ic fuel (some u) rest := by rw [hms]; simp [h]
              exact (ih _ _ _ this).trans hrs.isInfix
      · simp only [List.mem_cons] at h
        rcases h with h | h
        · subst h; exact hm1in
        · exact (ih _ _ _ h).trans hafter.isInfix

/-- Every sentence that `splitSentences` returns is a piece of the text. -/
theorem splitSentences_piece (text s : JsString) (h : s ∈ splitSentences text) : s <:+: text := by
  simp only [splitSentences, Re.matchGlobal, List.mem_map] at h
  obtain ⟨m, hm, rfl⟩ := h
  exact Re.allMatches_piece _ _ _ _ _ _ hm

/-! ## The matcher: searching -/

theorem prevAfter_append (prev : Option CodeUnit) (a b : JsString) :
    prevAfter prev (a ++ b) = prevAfter (prevAfter prev a) b := by
  induction a generalizing prev with
  | nil => rfl
  | cons u a ih => simp only [List.cons_append, prevAfter]; exact ih _

theorem Re.search_isSome_iff (ic : Bool) (re : Re) :
    ∀ s prev, (re.search ic prev s).isSome = true ↔
      ∃ pre rest, s = pre ++ rest ∧ re.ends ic (prevAfter prev pre, rest) ≠ [] := by
  intro s
  induction s with
  | nil =>
    intro prev
    simp only [Re.search]
    constructor
    · intro h
      refine ⟨[], [], rfl, ?_⟩
      intro hn
      simp only [prevAfter] at hn
      rw [hn] at h
      simp at h
    · rintro ⟨pre, rest, he, hne⟩
      have hp : pre = [] := by
        cases pre with
        | nil => rfl
        | cons a t => simp at he
      have hr : rest = [] := by
        subst hp; simpa using he.symm
      subst hp; subst hr
      simp only [prevAfter] at hne
      cases h : re.ends ic (prev, []) with
      | nil => exact absurd h hne
      | cons y ys => simp
  | cons u r ih =>
    intro prev
    simp only [Re.search]
    cases h : re.ends ic (prev, u :: r) with
    | cons y ys =>
      simp only [Option.isSome_some, true_iff]
      exact ⟨[], u :: r, rfl, by simp [prevAfter, h]⟩
    | nil =>
      simp only [Option.isSome_map']
      rw [ih]
      constructor
      · rintro ⟨pre, rest, he, hne⟩
        exact ⟨u :: pre, rest, by simp [he], by simpa [prevAfter] using hne⟩
      · rintro ⟨pre, rest, he, hne⟩
        cases pre with
        | nil =>
          simp only [List.nil_append] at he
          subst he
          simp only [prevAfter] at hne
          exact absurd h hne
        | cons a pre =>
          simp only [List.cons_append, List.cons.injEq] at he
          obtain ⟨rfl, he⟩ := he
          exact ⟨pre, rest, he, by simpa [prevAfter] using hne⟩

theorem Re.test_iff (ic : Bool) (re : Re) (s : JsString) :
    re.test ic s = true ↔
      ∃ pre rest, s = pre ++ rest ∧ re.ends ic (prevAfter none pre, rest) ≠ [] :=
  Re.search_isSome_iff ic re s none

/-! ## Literal patterns -/

theorem unitMatches_true_iff (x c : Nat) :
    unitMatches true x c = true ↔ asciiLower x = asciiLower c := by
  simp only [unitMatches, if_true, decide_eq_true_eq, canonicalize, asciiLower, CodeUnit]
  split_ifs <;> omega

theorem unitMatches_false_iff (x c : CodeUnit) : unitMatches false x c = true ↔ x = c := by
  simp [unitMatches]

/-- Case-sensitive literal: the end position is unique and lies right after the literal. -/
theorem Re.lit_ends (t : JsString) : ∀ (prev : Option CodeUnit) (s : JsString),
    (Re.lit t).ends false (prev, s) =
      if t <+: s then [(prevAfter prev t, s.drop t.length)] else [] := by
  induction t with
  | nil => intro prev s; simp [Re.lit, Re.ends, prevAfter]
  | cons c t ih =>
    intro prev s
    cases s with
    | nil => simp [Re.lit, Re.ends]
    | cons u rest =>
      simp only [Re.lit, Re.ends, List.cons_prefix_cons, List.length_cons, List.drop_succ_cons,
        prevAfter]
      by_cases huc : u = c
      · subst huc
        simp only [unitMatches_false_iff, if_true, List.flatMap_cons, List.flatMap_nil,
          List.append_nil, true_and, (unitMatches_false_iff u u).mpr rfl]
        exact ih _ _
      · have : unitMatches false u c = false := by
          rw [← Bool.not_eq_true, unitMatches_false_iff]; exact huc
        simp [this, Ne.symm huc]

/-- Case-insensitive literal: it matches at a position iff the input there
starts with the literal up to letter case. -/
theorem Re.lit_ends_ignoreCase (t : JsString) : ∀ (prev : Option CodeUnit) (s : JsString),
    (Re.lit t).ends true (prev, s) ≠ [] ↔
      ∃ mid post, s = mid ++ post ∧ mid.map asciiLower = t.map asciiLower := by
  induction t with
  | nil =>
    intro prev s
    simp only [Re.lit, Re.ends, ne_eq, List.cons_ne_self, not_false_eq_true, List.map_nil,
      List.map_eq_nil_iff, true_iff, reduceCtorEq]
    exact ⟨[], s, rfl, rfl⟩
  | cons c t ih =>
    intro prev s
    cases s with
    | nil =>
      simp only [Re.lit, Re.ends, List.flatMap_nil, ne_eq, not_true_eq_false, false_iff]
      rintro ⟨mid, post, he, hm⟩
      have : mid = [] := by
        cases mid with
        | nil => rfl
        | cons a m => simp at he
      subst this
      simp at hm
    | cons u rest =>
      simp only [Re.lit, Re.ends]
      by_cases huc : unitMatches true u c = true
      · simp only [huc, if_true, List.flatMap_cons, List.flatMap_nil, List.append_nil]
        rw [ih]
        rw [unitMatches_true_iff] at huc
        constructor
        · rintro ⟨mid, post, he, hm⟩
          exact ⟨u :: mid, post, by simp [he], by simp [hm, huc]⟩
        · rintro ⟨mid, post, he, hm⟩
          cases mid with
          | nil => simp at hm
          | cons a mid =>
            simp only [List.cons_append, List.cons.injEq] at he
            simp only [List.map_cons, List.cons.injEq] at hm
            exact ⟨mid, post, he.2, hm.2⟩
      · simp only [huc, Bool.false_eq_true, if_false, List.flatMap_nil, ne_eq,
          not_true_eq_false, false_iff]
        rintro ⟨mid, post, he, hm⟩
        cases mid with
        | nil => simp at hm
        | cons a mid =>
          simp only [List.cons_append, List.cons.injEq] at he
          simp only [List.map_cons, List.cons.injEq] at hm
          apply huc
          rw [unitMatches_true_iff, he.1]
          exact hm.1

/-- A case-insensitive literal pattern tests true exactly on the texts that
contain the literal in some letter case. -/
theorem Re.lit_test_ignoreCase (phrase text : JsString)
    (hlow : phrase.map asciiLower = phrase) :
    (Re.lit phrase).test true text = true ↔ ContainsIgnoringCase text phrase := by
  rw [Re.test_iff]
  constructor
  · rintro ⟨pre, rest, he, hne⟩
    rw [Re.lit_ends_ignoreCase] at hne
    obtain ⟨mid, post, he2, hm⟩ := hne
    exact ⟨pre, mid, post, by rw [he, he2, List.append_assoc], by rw [hm, hlow]⟩
  · rintro ⟨pre, mid, post, he, hm⟩
    refine ⟨pre, mid ++ post, by rw [he, List.append_assoc], ?_⟩
    rw [Re.lit_ends_ignoreCase]
    exact ⟨mid, post, rfl, by rw [hm, hlow]⟩

theorem citationNeeded_lower :
    (str "citation needed").map asciiLower = str "citation needed" := by decide

/-- `/citation needed/i.test(text)`. -/
theorem citationNeededRegex_test (text : JsString) :
    citationNeededRegex.test true text = true ↔
      ContainsIgnoringCase text (str "citation needed") :=
  Re.lit_test_ignoreCase _ _ citationNeeded_lower

/-! ## Lower-casing and the phrase `citation needed` -/

theorem lowerUnit_of_ascii (u : Nat) (h : asciiLower u < 128) : lowerUnit u = [asciiLower u] := by
  revert h
  simp only [asciiLower, lowerUnit, CodeUnit]
  split_ifs <;> intro h <;> first | rfl | omega

theorem toLowerCase_cons (u : CodeUnit) (t : JsString) :
    toLowerCase (u :: t) = lowerUnit u ++ toLowerCase t := by
  simp [toLowerCase]

theorem toLowerCase_append (a b : JsString) :
    toLowerCase (a ++ b) = toLowerCase a ++ toLowerCase b := by
  simp [toLowerCase]

theorem toLowerCase_of_ascii (mid : JsString) (h : ∀ u ∈ mid, asciiLower u < 128) :
    toLowerCase mid = mid.map asciiLower := by
  induction mid with
  | nil => rfl
  | cons u mid ih =>
    rw [toLowerCase_cons, lowerUnit_of_ascii u (h u (by simp)),
      ih fun v hv => h v (by simp [hv])]
    rfl

theorem getLast?_tail_ne (a : Nat) (q : List Nat) (x : Nat)
    (h : (a :: q).getLast? ≠ some x) : q.getLast? ≠ some x := by
  cases q with
  | nil => simp
  | cons b q => rwa [List.getLast?_cons_cons] at h

/-- A phrase found at the start of the lower-cased text comes from a piece at
the start of the text that spells it up to letter case. -/
theorem toLowerCase_start (q : List Nat) : ∀ (text : List Nat),
    (∀ c ∈ q, c < 128 ∧ c ≠ 0x6B ∧ asciiLower c = c) → q.getLast? ≠ some 0x69 →
    q <+: toLowerCase text → ∃ mid, mid <+: text ∧ mid.map asciiLower = q := by
  induction q with
  | nil => intro text _ _ _; exact ⟨[], List.nil_prefix, rfl⟩
  | cons a q ih =>
    intro text hq hlast hpre
    cases text with
    | nil => simp [toLowerCase] at hpre
    | cons u t =>
      rw [toLowerCase_cons] at hpre
      have hq' : ∀ c ∈ q, c < 128 ∧ c ≠ 0x6B ∧ asciiLower c = c :=
        fun c hc => hq c (by simp [hc])
      have hlast' := getLast?_tail_ne a q _ hlast
      have ha := hq a (by simp)
      unfold lowerUnit at hpre
      split_ifs at hpre with h1 h2 h3
      · simp only [List.singleton_append, List.cons_prefix_cons] at hpre
        obtain ⟨mid, hm, hmap⟩ := ih t hq' hlast' hpre.2
        refine ⟨u :: mid, by simpa using hm, ?_⟩
        simp only [List.map_cons, hmap, List.cons.injEq, and_true, asciiLower, h1]
        simp only [if_true]; exact hpre.1.symm
      · simp only [List.singleton_append, List.cons_prefix_cons] at hpre
        exact absurd hpre.1 ha.2.1
      · simp only [List.cons_append, List.cons_prefix_cons, List.nil_append] at hpre
        rcases List.prefix_cons_iff.mp hpre.2 with hnil | ⟨t2, ht2, _⟩
        · subst hnil
          rw [hpre.1] at hlast
          exact absurd rfl hlast
        · have := (hq' 0x307 (by rw [ht2]; simp)).1
          omega
      · simp only [List.singleton_append, List.cons_prefix_cons] at hpre
        obtain ⟨mid, hm, hmap⟩ := ih t hq' hlast' hpre.2
        refine ⟨u :: mid, by simpa using hm, ?_⟩
        simp only [List.map_cons, hmap, List.cons.injEq, and_true]
        rw [← hpre.1]; exact ha.2.2

theorem ContainsIgnoringCase.cons (u : CodeUnit) {t q : JsString}
    (h : ContainsIgnoringCase t q) : ContainsIgnoringCase (u :: t) q := by
  obtain ⟨pre, mid, post, he, hm⟩ := h
  exact ⟨u :: pre, mid, post, by simp [he], hm⟩

theorem toLowerCase_inside (q : List Nat) (hne : q ≠ [])
    (hq : ∀ c ∈ q, c < 128 ∧ c ≠ 0x6B ∧ asciiLower c = c) (hlast : q.getLast? ≠ some 0x69) :
    ∀ (text : List Nat), q <:+: toLowerCase text → ContainsIgnoringCase text q := by
  intro text
  induction text with
  | nil =>
    intro h
    simp only [toLowerCase, List.flatMap_nil, List.infix_nil] at h
    exact absurd h hne
  | cons u t ih =>
    intro h
    have hstart : q <+: toLowerCase (u :: t) → ContainsIgnoringCase (u :: t) q := by
      intro hp
      obtain ⟨mid, ⟨post, hm⟩, hmap⟩ := toLowerCase_start q (u :: t) hq hlast hp
      exact ⟨[], mid, post, by simpa using hm.symm, hmap⟩
    have hcases : q <+: toLowerCase (u :: t) ∨ q <:+: toLowerCase t := by
      rw [toLowerCase_cons] at h ⊢
      unfold lowerUnit at h ⊢
      split_ifs at h ⊢ with h1 h2 h3
      · exact List.infix_cons_iff.mp h
      · exact List.infix_cons_iff.mp h
      · simp only [List.cons_append, List.nil_append] at h ⊢
        rcases List.infix_cons_iff.mp h with h | h
        · exact Or.inl h
        · rcases List.infix_cons_iff.mp h with h | h
          · rcases List.prefix_cons_iff.mp h with hnil | ⟨t2, ht2, _⟩
            · exact absurd hnil hne
            · have := (hq 0x307 (by rw [ht2]; simp)).1
              omega
          · exact Or.inr h
      · exact List.infix_cons_iff.mp h
    rcases hcases with h | h
    · exact hstart h
    · exact (ih h).cons u

/-- `innerText.toLowerCase().includes('citation needed')`. -/
theorem includes_toLowerCase_citationNeeded (text : JsString) :
    includes (toLowerCase text) (str "citation needed") = true ↔
      ContainsIgnoringCase text (str "citation needed") := by
  rw [includes_iff]
  constructor
  · exact toLowerCase_inside (str "citation needed") (by decide) (by decide) (by decide) text
  · rintro ⟨pre, mid, post, he, hm⟩
    have hascii : ∀ u ∈ mid, asciiLower u < 128 := by
      intro u hu
      have hmem : asciiLower u ∈ str "citation needed" := by
        rw [← hm]; exact List.mem_map_of_mem _ hu
      have hall : ∀ c ∈ str "citation needed", c < 128 := by decide
      exact hall _ hmem
    rw [he, toLowerCase_append, toLowerCase_append, toLowerCase_of_ascii mid hascii, hm]
    exact List.infix_append _ _ _

/-! ## Quantified character classes -/

theorem Re.ends_cat (ic : Bool) (a b : Re) (x : Pos) :
    (Re.cat a b).ends ic x = (a.ends ic x).flatMap (b.ends ic) := rfl

theorem Re.ends_alt (ic : Bool) (a b : Re) (x : Pos) :
    (Re.alt a b).ends ic x = a.ends ic x ++ b.ends ic x := rfl

theorem Re.ends_rep (ic : Bool) (r : Re) (lo : Nat) (hi : Option Nat) (x : Pos) :
    (Re.rep r lo hi).ends ic x = repEnds (r.ends ic) (lo + x.2.length + 1) lo hi x := rfl

theorem Re.ends_wordBoundary (ic : Bool) (x : Pos) :
    Re.wordBoundary.ends ic x = if isWordOpt x.1 != isWordOpt x.2.head? then [x] else [] := rfl

theorem cls_ends_mem (ic : Bool) (p : CodeUnit → Bool) (x y : Pos)
    (h : y ∈ (Re.cls p).ends ic x) : ∃ u, p u = true ∧ x.2 = u :: y.2 ∧ y.1 = some u := by
  simp only [Re.ends] at h
  split at h
  · rename_i u rest hx
    split at h
    · rename_i hp
      simp only [List.mem_singleton] at h
      subst h
      exact ⟨u, hp, hx, rfl⟩
    · simp at h
  · simp at h

theorem cls_ends_cons (ic : Bool) (p : CodeUnit → Bool) (prev : Option CodeUnit) (u : CodeUnit)
    (rest : JsString) (hp : p u = true) :
    (Re.cls p).ends ic (prev, u :: rest) = [(some u, rest)] := by
  simp [Re.ends, hp]

/-- What a quantified class consumes: at least `lo` code units of the class. -/
theorem repEnds_cls_mem (ic : Bool) (p : CodeUnit → Bool) :
    ∀ fuel lo hi x y, (∀ h, hi = some h → lo ≤ h) →
      y ∈ repEnds ((Re.cls p).ends ic) fuel lo hi x →
      ∃ ds, x.2 = ds ++ y.2 ∧ lo ≤ ds.length ∧ (∀ d ∈ ds, p d = true) ∧
        y.1 = prevAfter x.1 ds := by
  intro fuel
  induction fuel with
  | zero => intro lo hi x y _ h; simp [repEnds] at h
  | succ fuel ih =>
    intro lo hi x y hbound h
    simp only [repEnds] at h
    split at h
    · rename_i h0
      simp only [List.mem_singleton] at h
      subst h
      have := hbound 0 h0
      exact ⟨[], rfl, by simpa using this, by simp, rfl⟩
    · rename_i h0
      have key : ∀ y, y ∈ (((Re.cls p).ends ic x).flatMap fun z =>
            if lo = 0 ∧ z.2.length = x.2.length then []
            else repEnds ((Re.cls p).ends ic) fuel (lo - 1) (hi.map (· - 1)) z) →
          ∃ ds, x.2 = ds ++ y.2 ∧ lo ≤ ds.length ∧ (∀ d ∈ ds, p d = true) ∧
            y.1 = prevAfter x.1 ds := by
        intro y hy
        simp only [List.mem_flatMap] at hy
        obtain ⟨z, hz, hy⟩ := hy
        split at hy
        · simp at hy
        · obtain ⟨u, hu, hx, hz1⟩ := cls_ends_mem ic p x z hz
          have hb2 : ∀ h, hi.map (· - 1) = some h → lo - 1 ≤ h := by
            intro h hh
            cases hi with
            | none => simp at hh
            | some k =>
              simp only [Option.map_some', Option.some.injEq] at hh
              have := hbound k rfl
              omega
          obtain ⟨ds, hds, hlen, hall, hprev⟩ := ih _ _ _ _ hb2 hy
          refine ⟨u :: ds, by rw [hx, hds]; rfl, by simp only [List.length_cons]; omega, ?_, ?_⟩
          · intro d hd
            simp only [List.mem_cons] at hd
            rcases hd with rfl | hd
            · exact hu
            · exact hall d hd
          · rw [hprev, hz1]; rfl
      split at h
      · rename_i hlo
        simp only [List.mem_append, List.mem_singleton] at h
        rcases h with h | h
        · exact key _ h
        · subst h
          exact ⟨[], rfl, by simp [hlo], by simp, rfl⟩
      · exact key _ h

/-- An unbounded quantified class can stop after any run of the class that is long enough. -/
theorem repEnds_cls_mem_of (ic : Bool) (p : CodeUnit → Bool) (ds : JsString) :
    ∀ fuel lo prev rest, ds.length < fuel → lo ≤ ds.length → (∀ d ∈ ds, p d = true) →
      (prevAfter prev ds, rest) ∈
        repEnds ((Re.cls p).ends ic) fuel lo none (prev, ds ++ rest) := by
  induction ds with
  | nil =>
    intro fuel lo prev rest hf hlo _
    cases fuel with
    | zero => omega
    | succ fuel =>
      have hlo0 : lo = 0 := by simpa using hlo
      subst hlo0
      simp [repEnds, prevAfter]
  | cons d ds ih =>
    intro fuel lo prev rest hf hlo hall
    cases fuel with
    | zero => omega
    | succ fuel =>
      have hd := hall d (by simp)
      have hrec := ih fuel (lo - 1) (some d) rest
        (by simp only [List.length_cons] at hf; omega)
        (by simp only [List.length_cons] at hlo; omega)
        (fun e he => hall e (by simp [he]))
      have hiter : (prevAfter prev (d :: ds), rest) ∈
          (((Re.cls p).ends ic (prev, d :: ds ++ rest)).flatMap fun z =>
            if lo = 0 ∧ z.2.length = (prev, d :: ds ++ rest).2.length then []
            else repEnds ((Re.cls p).ends ic) fuel (lo - 1) (Option.map (· - 1) none) z) := by
        rw [List.cons_append, cls_ends_cons ic p prev d _ hd]
        simp only [List.flatMap_cons, List.flatMap_nil, List.append_nil, List.length_cons]
        rw [if_neg (by omega)]
        exact hrec
      simp only [repEnds]
      rw [if_neg (by simp)]
      split
      · exact List.mem_append_left _ hiter
      · exact hiter

/-! ## The fuel of the matcher is enough -/

theorem flatMap_congr_mem {α β : Type} (l : List α) (f g : α → List β)
    (h : ∀ a ∈ l, f a = g a) : l.flatMap f = l.flatMap g := by
  induction l with
  | nil => rfl
  | cons a l ih =>
    simp only [List.flatMap_cons]
    rw [h a (by simp), ih fun b hb => h b (by simp [hb])]

/-- Once the fuel of a quantifier covers its minimum and the rest of the
input, one more unit of fuel changes nothing. -/
theorem repEnds_fuel_succ (step : Pos → List Pos)
    (hstep : ∀ x y, y ∈ step x → y.2 <:+ x.2) :
    ∀ fuel lo hi x, lo + x.2.length + 1 ≤ fuel →
      repEnds step fuel lo hi x = repEnds step (fuel + 1) lo hi x := by
  intro fuel
  induction fuel with
  | zero => intro lo hi x h; omega
  | succ fuel ih =>
    intro lo hi x h
    rw [repEnds, repEnds]
    have hiter : ((step x).flatMap fun y =>
          if lo = 0 ∧ y.2.length = x.2.length then []
          else repEnds step fuel (lo - 1) (hi.map (· - 1)) y) =
        ((step x).flatMap fun y =>
          if lo = 0 ∧ y.2.length = x.2.length then []
          else repEnds step (fuel + 1) (lo - 1) (hi.map (· - 1)) y) := by
      apply flatMap_congr_mem
      intro y hy
      by_cases hc : lo = 0 ∧ y.2.length = x.2.length
      · rw [if_pos hc, if_pos hc]
      · rw [if_neg hc, if_neg hc]
        apply ih
        have hle := (hstep x y hy).length_le
        by_cases hlo : lo = 0
        · have : y.2.length ≠ x.2.length := fun he => hc ⟨hlo, he⟩
          omega
        · omega
    simp only [hiter]

/-- The fuel that `Re.ends` gives to a quantifier is enough: any larger amount
gives the same end positions. -/
theorem repEnds_fuel (ic : Bool) (r : Re) (lo : Nat) (hi : Option Nat) (x : Pos) (extra : Nat) :
    repEnds (r.ends ic) (lo + x.2.length + 1 + extra) lo hi x = (Re.rep r lo hi).ends ic x := by
  rw [Re.ends_rep]
  induction extra with
  | zero => rfl
  | succ extra ih =>
    rw [← ih, ← Nat.add_assoc]
    exact (repEnds_fuel_succ _ (Re.ends_suffix ic r) _ lo hi x (by omega)).symm

theorem Re.search_length (ic : Bool) (re : Re) (s : JsString) (prev : Option CodeUnit)
    (m : Match) (h : re.search ic prev s = some m) :
    m.before.length + m.matched.length + m.after.2.length = s.length := by
  have := congrArg List.length (Re.search_split ic re s prev m h)
  simp only [List.length_append] at this
  omega

/-- Once the fuel of a global match covers the input, one more unit changes nothing. -/
theorem Re.allMatches_fuel_succ (ic : Bool) (re : Re) :
    ∀ fuel prev s, s.length + 1 ≤ fuel →
      re.allMatches ic fuel prev s = re.allMatches ic (fuel + 1) prev s := by
  intro fuel
  induction fuel with
  | zero => intro prev s h; omega
  | succ fuel ih =>
    intro prev s h
    rw [Re.allMatches, Re.allMatches]
    cases hs : re.search ic prev s with
    | none => rfl
    | some m =>
      have hlen := Re.search_length ic re s prev m hs
      simp only
      by_cases hm : m.matched = []
      · simp only [hm, if_true]
        cases ha : m.after.2 with
        | nil => rfl
        | cons u rest =>
          simp only
          rw [ha] at hlen
          simp only [List.length_cons] at hlen
          rw [ih (some u) rest (by omega)]
      · simp only [hm, if_false]
        have : 0 < m.matched.length := List.length_pos.mpr hm
        rw [ih m.after.1 m.after.2 (by omega)]

/-- The fuel that `matchGlobal` and the global replacements give is enough. -/
theorem Re.allMatches_fuel (ic : Bool) (re : Re) (s : JsString) (extra : Nat) :
    re.allMatches ic (s.length + 1 + extra) none s = re.allMatches ic (s.length + 1) none s := by
  induction extra with
  | zero => rfl
  | succ extra ih =>
    rw [← ih, ← Nat.add_assoc]
    exact (Re.allMatches_fuel_succ ic re _ none s (by omega)).symm

/-! ## The pattern for bracketed numbers -/

theorem unit_ends_mem (c : CodeUnit) (x y : Pos) (h : y ∈ (Re.unit c).ends false x) :
    x.2 = c :: y.2 ∧ y.1 = some c := by
  simp only [Re.ends] at h
  split at h
  · rename_i u rest hx
    split at h
    · rename_i hm
      rw [unitMatches_false_iff] at hm
      simp only [List.mem_singleton] at h
      subst h; subst hm
      exact ⟨hx, rfl⟩
    · simp at h
  · simp at h

theorem unit_ends_cons (c : CodeUnit) (prev : Option CodeUnit) (rest : JsString) :
    (Re.unit c).ends false (prev, c :: rest) = [(some c, rest)] := by
  simp [Re.ends, unitMatches]

theorem bracketRegex_ends_iff (prev : Option CodeUnit) (s : JsString) :
    bracketRegex.ends false (prev, s) ≠ [] ↔
      ∃ ds post, ds ≠ [] ∧ (∀ d ∈ ds, isDigit d = true) ∧ s = 0x5B :: ds ++ 0x5D :: post := by
  constructor
  · intro h
    obtain ⟨y, hy⟩ := List.exists_mem_of_ne_nil _ h
    simp only [bracketRegex, Re.seq, Re.ends_cat, Re.ends_rep, digit, List.mem_flatMap] at hy
    obtain ⟨z, hz, w, hw, hy⟩ := hy
    obtain ⟨hz2, _⟩ := unit_ends_mem _ _ _ hz
    obtain ⟨hw2, _⟩ := unit_ends_mem _ _ _ hy
    obtain ⟨ds, hds, hlen, hall, _⟩ :=
      repEnds_cls_mem false isDigit _ 1 none z w (by simp) hw
    refine ⟨ds, y.2, ?_, hall, ?_⟩
    · intro hnil; subst hnil; simp at hlen
    · simp only at hz2
      rw [hz2, hds, hw2]
      simp
  · rintro ⟨ds, post, hne, hall, rfl⟩
    apply List.ne_nil_of_mem (a := (some 0x5D, post))
    simp only [bracketRegex, Re.seq, Re.ends_cat, Re.ends_rep, digit, List.mem_flatMap]
    refine ⟨(some 0x5B, ds ++ 0x5D :: post), ?_, (prevAfter (some 0x5B) ds, 0x5D :: post), ?_, ?_⟩
    · simp [Re.ends, unitMatches]
    · apply repEnds_cls_mem_of false isDigit ds _ 1 (some 0x5B) (0x5D :: post) _ _ hall
      · simp only [List.length_append, List.length_cons]; omega
      · cases ds with
        | nil => exact absurd rfl hne
        | cons d ds => simp
    · simp [Re.ends, unitMatches]

/-- `/\[\d+\]/.test(windowText)`. -/
theorem bracketRegex_test (w : JsString) :
    bracketRegex.test false w = true ↔ HasBracketNumber w := by
  rw [Re.test_iff]
  constructor
  · rintro ⟨pre, rest, he, hne⟩
    obtain ⟨ds, post, hds, hall, hr⟩ := (bracketRegex_ends_iff _ _).mp hne
    exact ⟨pre, ds, post, hds, hall, by rw [he, hr]; simp⟩
  · rintro ⟨pre, ds, post, hds, hall, he⟩
    refine ⟨pre, 0x5B :: ds ++ 0x5D :: post, by rw [he]; simp, ?_⟩
    exact (bracketRegex_ends_iff _ _).mpr ⟨ds, post, hds, hall, rfl⟩

/-! ## The numeric pattern -/

theorem wordBoundary_ends_mem (ic : Bool) (x y : Pos) (h : y ∈ Re.wordBoundary.ends ic x) :
    y = x := by
  rw [Re.ends_wordBoundary] at h
  split at h
  · simpa using h
  · simp at h

theorem repEnds_zero_ne_nil (step : Pos → List Pos) (fuel : Nat) (hi : Option Nat) (x : Pos) :
    repEnds step (fuel + 1) 0 hi x ≠ [] := by
  simp only [repEnds]
  split <;> simp

/-- A digit quantifier with a positive minimum needs a digit at the position. -/
theorem head_digit_of_rep (ic : Bool) (fuel lo : Nat) (hi : Option Nat) (x y : Pos)
    (hlo : 1 ≤ lo) (hbound : ∀ h, hi = some h → lo ≤ h)
    (h : y ∈ repEnds (digit.ends ic) fuel lo hi x) :
    ∃ u r, x.2 = u :: r ∧ isDigit u = true := by
  obtain ⟨ds, hds, hlen, hall, _⟩ := repEnds_cls_mem ic isDigit fuel lo hi x y hbound h
  cases ds with
  | nil => simp at hlen; omega
  | cons d ds => exact ⟨d, ds ++ y.2, hds, hall d (by simp)⟩

/-- A digit quantifier with minimum one matches wherever a digit stands. -/
theorem rep_digit_ne_nil (ic : Bool) (hi : Option Nat) (hhi : hi ≠ some 0)
    (prev : Option CodeUnit) (u : CodeUnit) (r : JsString) (hu : isDigit u = true) :
    (Re.rep digit 1 hi).ends ic (prev, u :: r) ≠ [] := by
  rw [Re.ends_rep]
  simp only [repEnds, digit, List.length_cons]
  rw [if_neg hhi, cls_ends_cons ic isDigit prev u r hu]
  simp only [List.flatMap_cons, List.flatMap_nil, List.append_nil, Nat.one_ne_zero, false_and,
    if_false, Nat.sub_self]
  split_ifs <;> simp

theorem lit_ends_mem_start (t : JsString) (x y : Pos) (h : y ∈ (Re.lit t).ends false x) :
    t <+: x.2 := by
  have := Re.lit_ends t x.1 x.2
  rw [show ((x.1, x.2) : Pos) = x from rfl] at this
  rw [this] at h
  split at h
  · assumption
  · simp at h

theorem head_of_start (a b : CodeUnit) (s : JsString) (h : [a, b] <+: s) :
    ∃ r, s = a :: r := by
  obtain ⟨t, ht⟩ := h
  exact ⟨b :: t, by simpa using ht.symm⟩

/-- Every match of `numRegex` starts at a digit. -/
theorem numRegex_ends_digit (x y : Pos) (h : y ∈ numRegex.ends false x) :
    ∃ u r, x.2 = u :: r ∧ isDigit u = true := by
  simp only [numRegex, Re.oneOf, Re.seq, Re.ends_alt, Re.ends_cat, List.mem_append,
    List.mem_flatMap] at h
  rcases h with h | ⟨z, hz, w, hw, _⟩ | ⟨z, hz, w, hw, _⟩ | ⟨z, hz, w, hw, _⟩
  · rw [Re.ends_rep] at h
    exact head_digit_of_rep false _ 1 _ x y (le_refl _) (by simp) h
  · rw [wordBoundary_ends_mem _ _ _ hz, Re.ends_rep] at hw
    exact head_digit_of_rep false _ 1 _ x w (le_refl _) (by simp) hw
  · rw [wordBoundary_ends_mem _ _ _ hz, Re.ends_rep] at hw
    exact head_digit_of_rep false _ 1 _ x w (le_refl _) (by simp) hw
  · rw [wordBoundary_ends_mem _ _ _ hz] at hw
    rcases hw with hw | hw | hw
    · obtain ⟨r, hr⟩ := head_of_start 0x31 0x38 _ (lit_ends_mem_start _ _ _ hw)
      exact ⟨_, r, hr, by decide⟩
    · obtain ⟨r, hr⟩ := head_of_start 0x31 0x39 _ (lit_ends_mem_start _ _ _ hw)
      exact ⟨_, r, hr, by decide⟩
    · obtain ⟨r, hr⟩ := head_of_start 0x32 0x30 _ (lit_ends_mem_start _ _ _ hw)
      exact ⟨_, r, hr, by decide⟩

/-- The first alternative `\d{1,4}` alone: it finds a match iff the text has a digit. -/
theorem firstAlternative_test (s : JsString) :
    (Re.rep digit 1 (some 4)).test false s = true ↔ ∃ u ∈ s, isDigit u = true := by
  rw [Re.test_iff]
  constructor
  · rintro ⟨pre, rest, he, hne⟩
    obtain ⟨y, hy⟩ := List.exists_mem_of_ne_nil _ hne
    rw [Re.ends_rep] at hy
    obtain ⟨u, r, hr, hu⟩ := head_digit_of_rep false _ 1 _ _ y (le_refl _) (by simp) hy
    simp only at hr
    exact ⟨u, by rw [he, hr]; simp, hu⟩
  · rintro ⟨u, hmem, hu⟩
    obtain ⟨pre, r, he⟩ := List.append_of_mem hmem
    exact ⟨pre, u :: r, he, rep_digit_ne_nil false _ (by simp) _ u r hu⟩

theorem numRegex_test_iff (s : JsString) :
    numRegex.test false s = true ↔ ∃ u ∈ s, isDigit u = true := by
  rw [Re.test_iff]
  constructor
  · rintro ⟨pre, rest, he, hne⟩
    obtain ⟨y, hy⟩ := List.exists_mem_of_ne_nil _ hne
    obtain ⟨u, r, hr, hu⟩ := numRegex_ends_digit _ y hy
    simp only at hr
    exact ⟨u, by rw [he, hr]; simp, hu⟩
  · rintro ⟨u, hmem, hu⟩
    obtain ⟨pre, r, he⟩ := List.append_of_mem hmem
    refine ⟨pre, u :: r, he, ?_⟩
    have h1 := rep_digit_ne_nil false (some 4) (by simp) (prevAfter none pre) u r hu
    obtain ⟨y, hy⟩ := List.exists_mem_of_ne_nil _ h1
    apply List.ne_nil_of_mem (a := y)
    simp only [numRegex, Re.oneOf, Re.ends_alt, List.mem_append]
    exact Or.inl hy

/-! ## Global replacement over a character class: the escaping step -/

/-- The match list when nothing matches at the first position: the first
code unit joins the text before the first match. -/
theorem replaceMatches_skip (ic : Bool) (re : Re) (f : JsString → JsString → JsString → JsString)
    (fuel : Nat) (prev : Option CodeUnit) (u : CodeUnit) (rest consumed : JsString)
    (h : re.ends ic (prev, u :: rest) = []) :
    replaceMatches f consumed (u :: rest) (re.allMatches ic (fuel + 1) prev (u :: rest)) =
      u :: replaceMatches f (consumed ++ [u]) rest (re.allMatches ic (fuel + 1) (some u) rest) := by
  simp only [Re.allMatches, Re.search, h]
  cases hs : re.search ic (some u) rest with
  | none => simp [replaceMatches]
  | some m =>
    simp only [Option.map_some']
    by_cases hm : m.matched = []
    · simp only [hm, if_true]
      cases ha : m.after.2 with
      | nil => simp [replaceMatches, ha, hm]
      | cons v r2 =>
        simp only
        cases hr : re.allMatches ic fuel (some v) r2 with
        | nil => simp [replaceMatches, ha, hm]
        | cons m2 ms => simp [replaceMatches, ha, hm]
    · simp [hm, replaceMatches]

theorem cls_ends_nil (ic : Bool) (p : CodeUnit → Bool) (prev : Option CodeUnit) (u : CodeUnit)
    (rest : JsString) (hp : p u = false) : (Re.cls p).ends ic (prev, u :: rest) = [] := by
  simp [Re.ends, hp]

/-- Replacing every code unit of a class by a function of it is a `flatMap`. -/
theorem replace_cls (ic : Bool) (p : CodeUnit → Bool) (g : JsString → JsString) :
    ∀ (s : JsString) (fuel : Nat) (prev : Option CodeUnit) (consumed : JsString),
      s.length < fuel →
      replaceMatches (fun m _ _ => g m) consumed s ((Re.cls p).allMatches ic fuel prev s) =
        s.flatMap fun u => if p u then g [u] else [u] := by
  intro s
  induction s with
  | nil =>
    intro fuel prev consumed hf
    cases fuel with
    | zero => simp at hf
    | succ fuel => simp [Re.allMatches, Re.search, Re.ends, replaceMatches]
  | cons u rest ih =>
    intro fuel prev consumed hf
    cases fuel with
    | zero => simp at hf
    | succ fuel =>
      have hf2 : rest.length < fuel := by simpa using hf
      by_cases hp : p u = true
      · have hsearch : (Re.cls p).search ic prev (u :: rest) =
            some ⟨[], [u], (some u, rest)⟩ := by
          simp [Re.search, cls_ends_cons ic p prev u rest hp]
        simp only [Re.allMatches, hsearch, replaceMatches, List.flatMap_cons, hp, if_true]
        simp only [List.cons_ne_self, if_false, replaceMatches, List.nil_append, reduceCtorEq]
        rw [ih fuel _ _ hf2]
      · have hp2 : p u = false := by simpa using hp
        rw [replaceMatches_skip ic _ _ fuel prev u rest consumed (cls_ends_nil ic p prev u rest hp2)]
        rw [ih (fuel + 1) _ _ (by omega)]
        simp [hp2]

theorem getSubstitution_escape (m b a : JsString) :
    getSubstitution m b a (str "\\$&") = 0x5C :: m := by
  have : str "\\$&" = [0x5C, 0x24, 0x26] := by decide
  rw [this]
  simp [getSubstitution]

/-- The escaping step puts a backslash before each syntax character and keeps the rest. -/
theorem escapeRegExp_eq (t : JsString) : escapeRegExp t = t.flatMap escapeUnit := by
  unfold escapeRegExp Re.replaceGlobal escapeRegex
  have hf : (fun matched before after => getSubstitution matched before after (str "\\$&")) =
      fun m (_ : JsString) (_ : JsString) => (fun x => 0x5C :: x) m := by
    funext m b a; exact getSubstitution_escape m b a
  rw [hf, replace_cls false isSyntaxChar (fun x => 0x5C :: x) t _ none [] (by omega)]
  rfl

theorem RegExp_cons_patternCharacter (u : CodeUnit) (rest : JsString)
    (hs : isSyntaxChar u = false) :
    RegExp (u :: rest) = (RegExp rest).map (Re.cat (.unit u)) := by
  have hne : u ≠ 0x5C := by
    intro h; subst h; exact absurd hs (by decide)
  cases rest <;> simp [RegExp, hne, hs]

/-- `new RegExp` on an escaped text gives the pattern that matches the text literally. -/
theorem RegExp_escape (t : JsString) : RegExp (t.flatMap escapeUnit) = some (Re.lit t) := by
  induction t with
  | nil => rfl
  | cons u t ih =>
    simp only [List.flatMap_cons, escapeUnit]
    by_cases hs : isSyntaxChar u = true
    · simp only [hs, if_true, List.cons_append, List.nil_append, RegExp]
      simp only [escapeUnit] at ih
      rw [ih]
      rfl
    · have hs2 : isSyntaxChar u = false := by simpa using hs
      simp only [hs2, Bool.false_eq_true, if_false, List.cons_append, List.nil_append]
      simp only [escapeUnit] at ih
      rw [RegExp_cons_patternCharacter u _ hs2, ih]
      rfl

/-- The pattern built for a sentence always compiles, to the literal pattern of the sentence. -/
theorem RegExp_escapeRegExp (t : JsString) : RegExp (escapeRegExp t) = some (Re.lit t) := by
  rw [escapeRegExp_eq, RegExp_escape]

/-! ## Replacing the first literal occurrence -/

theorem getSubstitution_of_no_dollar_aux (m b a : JsString) :
    ∀ (n : Nat) (template : JsString), template.length ≤ n → 0x24 ∉ template →
      getSubstitution m b a template = template := by
  intro n
  induction n with
  | zero =>
    intro template hl _
    have : template = [] := List.length_eq_zero.mp (Nat.le_zero.mp hl)
    subst this; rfl
  | succ n ih =>
    intro template hl h
    match template, hl, h with
    | [], _, _ => rfl
    | [u], _, _ => rfl
    | u :: v :: rest, hl, h =>
      have hu : u ≠ 0x24 := fun hu => h (by simp [hu])
      rw [getSubstitution, if_neg hu,
        ih (v :: rest) (by simp only [List.length_cons] at hl ⊢; omega)
          (fun hm => h (List.mem_cons_of_mem _ hm))]

/-- A replacement pattern without `$` is inserted as it is. -/
theorem getSubstitution_of_no_dollar (m b a template : JsString) (h : 0x24 ∉ template) :
    getSubstitution m b a template = template :=
  getSubstitution_of_no_dollar_aux m b a _ template (le_refl _) h

/-- The leftmost match of a literal pattern is the first occurrence of the literal. -/
theorem search_lit_some (t : JsString) : ∀ (s pre post : JsString) (prev : Option CodeUnit),
    s = pre ++ t ++ post →
    (∀ pre2 post2, s = pre2 ++ t ++ post2 → pre.length ≤ pre2.length) →
    (Re.lit t).search false prev s = some ⟨pre, t, (prevAfter prev (pre ++ t), post)⟩ := by
  intro s
  induction s with
  | nil =>
    intro pre post prev he _
    have h1 : pre = [] := by
      cases pre with
      | nil => rfl
      | cons a p => simp at he
    subst h1
    have h2 : t = [] := by
      cases t with
      | nil => rfl
      | cons a p => simp at he
    subst h2
    have h3 : post = [] := by simpa using he.symm
    subst h3
    simp [Re.search, Re.lit, Re.ends, prevAfter]
  | cons u r ih =>
    intro pre post prev he hmin
    by_cases hp : t <+: u :: r
    · obtain ⟨post2, hpost2⟩ := hp
      have hpre : pre = [] := by
        have := hmin [] post2 (by simpa using hpost2.symm)
        exact List.length_eq_zero.mp (Nat.le_zero.mp this)
      subst hpre
      simp only [List.nil_append] at he
      simp only [Re.search, Re.lit_ends, List.nil_append]
      rw [if_pos ⟨post, he.symm⟩]
      simp only [he, List.drop_left', List.length_append, Nat.add_sub_cancel, List.take_left']
    · cases pre with
      | nil => exact absurd ⟨post, by simpa using he.symm⟩ hp
      | cons a pre =>
        simp only [List.cons_append, List.cons.injEq] at he
        obtain ⟨rfl, he⟩ := he
        have hmin2 : ∀ pre2 post2, r = pre2 ++ t ++ post2 → pre.length ≤ pre2.length := by
          intro pre2 post2 h2
          have := hmin (u :: pre2) post2 (by simp [h2])
          simpa using this
        simp only [Re.search, Re.lit_ends, if_neg hp]
        rw [ih pre post (some u) he hmin2]
        simp [prevAfter]

/-- A literal pattern finds nothing in a text that does not contain the literal. -/
theorem search_lit_none (t : JsString) : ∀ (s : JsString) (prev : Option CodeUnit),
    ¬ t <:+: s → (Re.lit t).search false prev s = none := by
  intro s prev h
  cases hs : (Re.lit t).search false prev s with
  | none => rfl
  | some m =>
    exfalso
    have hsome : ((Re.lit t).search false prev s).isSome = true := by rw [hs]; rfl
    obtain ⟨pre, rest, he, hne⟩ := (Re.search_isSome_iff false (Re.lit t) s prev).mp hsome
    rw [Re.lit_ends] at hne
    split at hne
    · rename_i hp
      obtain ⟨post, hpost⟩ := hp
      exact h ⟨pre, post, by rw [he, ← hpost, List.append_assoc]⟩
    · exact hne rfl

/-- Among the occurrences of a text there is a first one. -/
theorem exists_first_occurrence (t s : JsString) (h : t <:+: s) :
    ∃ pre post, s = pre ++ t ++ post ∧
      ∀ pre2 post2, s = pre2 ++ t ++ post2 → pre.length ≤ pre2.length := by
  have hne : indexOf s t ≠ none := by
    rw [ne_eq, indexOf_eq_none_iff]; exact not_not.mpr h
  obtain ⟨i, hi⟩ := Option.ne_none_iff_exists'.mp hne
  obtain ⟨⟨pre, post, he, hl⟩, hmin⟩ := indexOf_eq_some s t i hi
  exact ⟨pre, post, he, fun pre2 post2 h2 => by rw [hl]; exact hmin pre2 post2 h2⟩

theorem base36Digit_ne_dollar (d : Fin 36) : base36Digit d ≠ 0x24 := by
  show (if d.val < 10 then 0x30 + d.val else 0x61 + (d.val - 10) : Nat) ≠ (0x24 : Nat)
  split <;> omega

theorem no_dollar_in_replacement (digits : List (Fin 36)) (trimmed : JsString)
    (h : 0x24 ∉ trimmed) : 0x24 ∉ sentenceReplacement (makeDataId digits) trimmed := by
  have h1 : (0x24 : Nat) ∉ str "<span class=\"" := by decide
  have h2 : (0x24 : Nat) ∉ HIGHLIGHT_CLASS := by decide
  have h3 : (0x24 : Nat) ∉ str "\" data-wsh-id=\"" := by decide
  have h4 : (0x24 : Nat) ∉ str "wsh-" := by decide
  have h5 : (0x24 : Nat) ∉ str "\" title=\"Click to search sources\">" := by decide
  have h6 : (0x24 : Nat) ∉ str "</span>" := by decide
  have h7 : (0x24 : Nat) ∉ (digits.take 7).map base36Digit := by
    intro hm
    obtain ⟨d, _, hd⟩ := List.mem_map.mp hm
    exact base36Digit_ne_dollar d hd
  simp only [sentenceReplacement, sentenceSpanOpen, makeDataId, List.mem_append, not_or]
  exact ⟨⟨⟨⟨⟨⟨h1, h2⟩, h3⟩, h4, h7⟩, h5⟩, h⟩, h6⟩

/-- The step of the sentence loop on a flagged sentence, as a function of the markup. -/
theorem scanSentence_flagged (host : Host) (rand : Nat → List (Fin 36)) (p : List Node)
    (html : JsString) (n : Nat) (s : JsString) (hne : trim s ≠ [])
    (hflag : isFlagged host p (trim s) = true) :
    scanSentence host rand p (html, n) s =
      some ((Re.lit (trim s)).replaceFirst false html
        (sentenceReplacement (makeDataId (rand n)) (trim s)), n + 1) := by
  simp only [scanSentence, hne, if_false, hflag, if_true, RegExp_escapeRegExp, Option.map_some']

theorem scanSentence_not_flagged (host : Host) (rand : Nat → List (Fin 36)) (p : List Node)
    (st : JsString × Nat) (s : JsString)
    (h : trim s = [] ∨ isFlagged host p (trim s) = false) :
    scanSentence host rand p st s = some st := by
  simp only [scanSentence]
  by_cases hne : trim s = []
  · simp [hne]
  · rcases h with h | h
    · exact absurd h hne
    · simp [hne, h]

/-! ## Unwrapping highlights -/

mutual
theorem Node.hasHighlight_unwrap : ∀ (n : Node), n.unwrap.hasHighlight = false
  | .text _ => rfl
  | .elem tag attrs cs => by
    rw [Node.unwrap]
    split
    · rfl
    · rename_i h
      rw [Node.hasHighlight, hasHighlightList_unwrapList cs]
      simp [h]
theorem hasHighlightList_unwrapList : ∀ (ns : List Node), hasHighlightList (unwrapList ns) = false
  | [] => rfl
  | n :: ns => by
    rw [unwrapList, hasHighlightList, Node.hasHighlight_unwrap n, hasHighlightList_unwrapList ns]
    rfl
end

mutual
theorem Node.unwrap_of_no_highlight : ∀ (n : Node), n.hasHighlight = false → n.unwrap = n
  | .text _, _ => rfl
  | .elem tag attrs cs, h => by
    rw [Node.hasHighlight, Bool.or_eq_false_iff] at h
    rw [Node.unwrap, if_neg (by simp [h.1]), unwrapList_of_no_highlight cs h.2]
theorem unwrapList_of_no_highlight :
    ∀ (ns : List Node), hasHighlightList ns = false → unwrapList ns = ns
  | [], _ => rfl
  | n :: ns, h => by
    rw [hasHighlightList, Bool.or_eq_false_iff] at h
    rw [unwrapList, Node.unwrap_of_no_highlight n h.1, unwrapList_of_no_highlight ns h.2]
end

/-- After `clearHighlights` no highlight element and no tooltip is left, while
the banner, the floating indicator and the body margin are as they were. -/
theorem clearHighlights_effect (d : Doc) :
    (clearHighlights d).paragraphs.any hasHighlightList = false ∧
    (clearHighlights d).tooltips = 0 ∧
    (clearHighlights d).banner = d.banner ∧
    (clearHighlights d).indicator = d.indicator ∧
    (clearHighlights d).marginTop = d.marginTop := by
  refine ⟨?_, rfl, rfl, rfl, rfl⟩
  simp only [clearHighlights, List.any_map, List.any_eq_false, Function.comp]
  intro p _
  simp [hasHighlightList_unwrapList]

/-- On a page without highlights `clearHighlights` leaves the paragraphs as they are. -/
theorem clearHighlights_of_no_highlight (d : Doc)
    (h : d.paragraphs.any hasHighlightList = false) :
    (clearHighlights d).paragraphs = d.paragraphs := by
  simp only [clearHighlights]
  rw [List.any_eq_false] at h
  conv_rhs => rw [← List.map_id d.paragraphs]
  apply List.map_congr_left
  intro p hp
  exact unwrapList_of_no_highlight p (by simpa using h p hp)

/-- What a scan that flags something leaves on the page besides the paragraphs. -/
theorem scanAndHighlight_banner (host : Host) (rand : Nat → List (Fin 36)) (d d2 : Doc)
    (n : Nat) (h : scanAndHighlight host rand d = some (d2, n)) (hn : 0 < n) :
    d2.banner = some (bannerHTML d.hostname n) ∧ d2.marginTop = str "50px" := by
  simp only [scanAndHighlight] at h
  split at h
  · simp at h
  · rename_i ps c _
    split at h
    · simp only [Option.some.injEq, Prod.mk.injEq] at h
      obtain ⟨rfl, rfl⟩ := h
      exact ⟨rfl, rfl⟩
    · rename_i hc
      simp only [Option.some.injEq, Prod.mk.injEq] at h
      omega

/-! ## The counter of the scan -/

theorem scanSentences_count (host : Host) (rand : Nat → List (Fin 36)) (p : List Node) :
    ∀ (ss : List JsString) (st : JsString × Nat), ∃ html,
      scanSentences host rand p st ss =
        some (html, st.2 +
          ((ss.map trim).filter fun t => t ≠ [] && isFlagged host p t).length) := by
  intro ss
  induction ss with
  | nil => intro st; exact ⟨st.1, by simp [scanSentences]⟩
  | cons s ss ih =>
    intro st
    by_cases hf : trim s ≠ [] ∧ isFlagged host p (trim s) = true
    · obtain ⟨hne, hflag⟩ := hf
      have hstep := scanSentence_flagged host rand p st.1 st.2 s hne hflag
      obtain ⟨html, hrest⟩ := ih ((Re.lit (trim s)).replaceFirst false st.1
        (sentenceReplacement (makeDataId (rand st.2)) (trim s)), st.2 + 1)
      refine ⟨html, ?_⟩
      simp only [scanSentences, hstep, hrest, List.map_cons]
      rw [List.filter_cons_of_pos (by simp [hne, hflag])]
      simp only [List.length_cons]
      congr 2
      omega
    · have hstep := scanSentence_not_flagged host rand p st s (by
        by_cases hne : trim s = []
        · exact Or.inl hne
        · right
          have : ¬ isFlagged host p (trim s) = true := fun h => hf ⟨hne, h⟩
          simpa using this)
      obtain ⟨html, hrest⟩ := ih st
      refine ⟨html, ?_⟩
      simp only [scanSentences, hstep, hrest, List.map_cons]
      rw [List.filter_cons_of_neg (by
        intro h
        simp only [Bool.and_eq_true, decide_eq_true_eq] at h
        exact hf h)]

theorem scanParagraph_count (host : Host) (rand : Nat → List (Fin 36)) (n : Nat)
    (p : List Node) :
    ∃ p2, scanParagraph host rand n p = some (p2, n + (flaggedSentences host p).length) := by
  simp only [scanParagraph, flaggedSentences]
  split
  · rename_i h0
    have : splitSentences (host.innerText p) = [] := List.length_eq_zero.mp h0
    exact ⟨host.setInnerHTML
      (markerRegex.replaceGlobalWith true (host.getInnerHTML p) markerSpan), by simp [this]⟩
  · obtain ⟨html, h⟩ := scanSentences_count host rand p (splitSentences (host.innerText p))
      (markerRegex.replaceGlobalWith true (host.getInnerHTML p) markerSpan, n)
    exact ⟨host.setInnerHTML html, by rw [h]; rfl⟩

theorem scanParagraphs_count (host : Host) (rand : Nat → List (Fin 36)) :
    ∀ (ps : List (List Node)) (n : Nat),
      ∃ ps2, scanParagraphs host rand n ps = some (ps2, n + flaggedPairs host ps) := by
  intro ps
  induction ps with
  | nil => intro n; exact ⟨[], by simp [scanParagraphs, flaggedPairs]⟩
  | cons p ps ih =>
    intro n
    obtain ⟨p2, hp⟩ := scanParagraph_count host rand n p
    obtain ⟨ps2, hps⟩ := ih (n + (flaggedSentences host p).length)
    refine ⟨p2 :: ps2, ?_⟩
    simp only [scanParagraphs, hp, hps, Option.map_some', flaggedPairs, List.map_cons,
      List.sum_cons]
    simp only [flaggedPairs] at *
    congr 2
    omega

/-- C1: for every page, `scanAndHighlight` returns, and the count it returns
is the number of (paragraph, sentence) pairs, over the paragraphs as
`clearHighlights` leaves them at the start of the scan (the paragraphs of the
page itself when the page has no highlight) and over the sentences segmented
from the plain text of the paragraph whose trimmed text is not empty, for
which `(needsHeuristic AND NOT hasReference) OR explicitMarker` holds. On the
page made of the paragraph
`Studies show that 42% of users agree. This is fine.` the count is 1: the
first sentence is flagged and the second is not. -/
theorem scanAndHighlight_count (host : Host) (rand : Nat → List (Fin 36)) (d : Doc) :
    (∃ d2, scanAndHighlight host rand d =
      some (d2, flaggedPairs host (clearHighlights d).paragraphs)) ∧
    (d.paragraphs.any hasHighlightList = false →
      ∃ d2, scanAndHighlight host rand d = some (d2, flaggedPairs host d.paragraphs)) ∧
    (∃ d2, scanAndHighlight plainHost rand (plainPage [studiesParagraph]) = some (d2, 1)) ∧
    splitSentences (plainHost.innerText studiesParagraph) =
      [str "Studies show that 42% of users agree.", str " This is fine."] ∧
    flaggedSentences plainHost studiesParagraph =
      [str "Studies show that 42% of users agree."] := by
  have general : ∀ (host : Host) (d : Doc), ∃ d2, scanAndHighlight host rand d =
      some (d2, flaggedPairs host (clearHighlights d).paragraphs) := by
    intro host d
    obtain ⟨ps2, hps⟩ := scanParagraphs_count host rand (clearHighlights d).paragraphs 0
    simp only [scanAndHighlight, hps, Nat.zero_add]
    split
    · exact ⟨_, rfl⟩
    · exact ⟨_, rfl⟩
  refine ⟨general host d, ?_, ?_, by decide, by decide⟩
  · intro hno
    have := general host d
    rwa [clearHighlights_of_no_highlight d hno] at this
  · obtain ⟨d2, h⟩ := general plainHost (plainPage [studiesParagraph])
    have hcount : flaggedPairs plainHost
        (clearHighlights (plainPage [studiesParagraph])).paragraphs = 1 := by decide
    exact ⟨d2, by rw [h, hcount]⟩

/-! ## The explicit marker -/

theorem containsIgnoringCase_of_decide (text : JsString)
    (h : includes (toLowerCase text) (str "citation needed") = true) :
    ContainsIgnoringCase text (str "citation needed") :=
  (includes_toLowerCase_citationNeeded text).mp h

theorem hasCitationNeeded_of_sentence (host : Host) (p : List Node) (s : JsString)
    (h : ContainsIgnoringCase (host.innerText p) (str "citation needed"))
    (hs : s ∈ splitSentences (host.innerText p)) :
    hasCitationNeeded host p (trim s) = true := by
  simp only [hasCitationNeeded, Bool.and_eq_true]
  exact ⟨(citationNeededRegex_test _).mpr h,
    (includes_iff _ _).mpr ((trim_piece s).trans (splitSentences_piece _ _ hs))⟩

/-- C3: in a paragraph whose plain text contains `citation needed` in any
letter case, every sentence segmented from the plain text whose trimmed text
is not empty is flagged, whatever `needsHeuristic` and `hasReference` say,
and each of them adds one to `flaggedCount`. -/
theorem citationNeeded_flags_every_sentence (host : Host) (rand : Nat → List (Fin 36))
    (p : List Node) (n : Nat)
    (h : ContainsIgnoringCase (host.innerText p) (str "citation needed")) :
    (∀ s ∈ splitSentences (host.innerText p), trim s ≠ [] →
      isFlagged host p (trim s) = true) ∧
    ∃ p2, scanParagraph host rand n p =
      some (p2, n + ((splitSentences (host.innerText p)).filter fun s => trim s ≠ []).length) := by
  have hall : ∀ s ∈ splitSentences (host.innerText p), isFlagged host p (trim s) = true := by
    intro s hs
    simp only [isFlagged, hasCitationNeeded_of_sentence host p s h hs, Bool.or_true]
  refine ⟨fun s hs _ => hall s hs, ?_⟩
  obtain ⟨p2, hp⟩ := scanParagraph_count host rand n p
  refine ⟨p2, ?_⟩
  rw [hp]
  congr 3
  simp only [flaggedSentences, List.filter_map, List.length_map]
  congr 1
  apply List.filter_congr
  intro s hs
  simp [hall s hs]

/-- Witness of C3: the sentence `This fact needs support.` of the paragraph
`This fact needs support. [citation needed]` is flagged although it has no
number and no cue word. -/
theorem citationNeeded_flags_every_sentence_witness :
    ContainsIgnoringCase (plainHost.innerText markerParagraph) (str "citation needed") ∧
    str "This fact needs support." ∈ splitSentences (plainHost.innerText markerParagraph) ∧
    needsHeuristic (trim (str "This fact needs support.")) = false ∧
    isFlagged plainHost markerParagraph (trim (str "This fact needs support.")) = true ∧
    ∃ p2, scanParagraph plainHost sampleRand 0 markerParagraph = some (p2, 2) :=
  have h := containsIgnoringCase_of_decide (plainHost.innerText markerParagraph) (by decide)
  have t := citationNeeded_flags_every_sentence plainHost sampleRand markerParagraph 0 h
  ⟨h, by decide, by decide, t.1 (str "This fact needs support.") (by decide) (by decide), t.2⟩

/-! ## The length threshold -/

/-- C5: for a sentence that matches the cue-word pattern, in a paragraph for
which `hasReference` is false and the explicit marker is false: with a trimmed
length of exactly 20 code units `needsHeuristic` is false and the sentence is
not flagged; with a trimmed length of exactly 21 it is flagged. -/
theorem threshold_boundary (host : Host) (p : List Node) (s : JsString)
    (hcue : cues.test true (trim s) = true)
    (href : hasReferenceInParagraph host p (trim s) = false)
    (hmark : hasCitationNeeded host p (trim s) = false) :
    ((trim s).length = 20 →
      needsHeuristic (trim s) = false ∧ isFlagged host p (trim s) = false) ∧
    ((trim s).length = 21 → isFlagged host p (trim s) = true) := by
  constructor
  · intro hl
    have : needsHeuristic (trim s) = false := by simp [needsHeuristic, hl]
    exact ⟨this, by simp [isFlagged, this, hmark]⟩
  · intro hl
    simp [isFlagged, needsHeuristic, hcue, hl, href]

/-- Witness of C5: `A study found it so.` (20 code units) is not flagged and
`A study found its so.` (21 code units) is flagged. -/
theorem threshold_boundary_witness :
    (cues.test true (trim cue20) = true ∧ (trim cue20).length = 20 ∧
      isFlagged plainHost [.text cue20] (trim cue20) = false) ∧
    (cues.test true (trim cue21) = true ∧ (trim cue21).length = 21 ∧
      isFlagged plainHost [.text cue21] (trim cue21) = true) :=
  ⟨⟨by decide, by decide,
      ((threshold_boundary plainHost [.text cue20] cue20 (by decide) (by decide)
        (by decide)).1 (by decide)).2⟩,
    ⟨by decide, by decide,
      (threshold_boundary plainHost [.text cue21] cue21 (by decide) (by decide)
        (by decide)).2 (by decide)⟩⟩

/-! ## The numeric pattern decides like "has a digit" -/

/-- C10: `numRegex` tests true on a sentence iff the sentence has a decimal
digit; the whole pattern decides as its first alternative `\d{1,4}` alone, so
the thousands-grouped, percentage and year alternatives never change the
outcome; a run of five or more digits passes too. -/
theorem numRegex_iff_digit (s : JsString) :
    (numRegex.test false s = true ↔ ∃ u ∈ s, isDigit u = true) ∧
    numRegex.test false s = (Re.rep digit 1 (some 4)).test false s ∧
    (∀ pre ds post, s = pre ++ ds ++ post → 5 ≤ ds.length →
      (∀ d ∈ ds, isDigit d = true) → numRegex.test false s = true) := by
  refine ⟨numRegex_test_iff s, ?_, ?_⟩
  · rw [Bool.eq_iff_iff, numRegex_test_iff, firstAlternative_test]
  · intro pre ds post he hlen hall
    rw [numRegex_test_iff]
    cases ds with
    | nil => simp at hlen
    | cons d ds => exact ⟨d, by rw [he]; simp, hall d (by simp)⟩

/-! ## The order of the checks in `hasReferenceInParagraph` -/

/-- Counterexample to C2: the paragraph
`Water is wet. [citation needed]<sup class="reference">[1]</sup>` contains the
phrase and a reference element, and `hasReferenceInParagraph` returns true. -/
theorem hasReference_true_despite_phrase :
    ContainsIgnoringCase (plainHost.innerText markerAndSupParagraph) (str "citation needed") ∧
    hasSupReferenceList markerAndSupParagraph = true ∧
    hasReferenceInParagraph plainHost markerAndSupParagraph (str "Water is wet.") = true :=
  ⟨containsIgnoringCase_of_decide _ (by decide), by decide, by decide⟩

/-- C2, amended: in a paragraph whose plain text contains `citation needed` in
any letter case, `hasReferenceInParagraph` returns, for every sentence, whether
the paragraph holds a `sup.reference` element: false without one, true with
one, since the structural check comes first. -/
theorem hasReference_with_phrase (host : Host) (p : List Node) (s : JsString)
    (h : ContainsIgnoringCase (host.innerText p) (str "citation needed")) :
    hasReferenceInParagraph host p s = hasSupReferenceList p := by
  unfold hasReferenceInParagraph
  by_cases hsup : hasSupReferenceList p = true
  · simp [hsup]
  · have hsup2 : hasSupReferenceList p = false := by simpa using hsup
    simp [hsup2, (includes_toLowerCase_citationNeeded _).mpr h]

/-- Witness of the amended C2: the paragraph
`This fact needs support. [citation needed]`, without a reference element. -/
theorem hasReference_with_phrase_witness :
    ContainsIgnoringCase (plainHost.innerText markerParagraph) (str "citation needed") ∧
    hasSupReferenceList markerParagraph = false ∧
    hasReferenceInParagraph plainHost markerParagraph (str "This fact needs support.") =
      hasSupReferenceList markerParagraph :=
  ⟨containsIgnoringCase_of_decide _ (by decide), by decide,
    hasReference_with_phrase plainHost markerParagraph (str "This fact needs support.")
      (containsIgnoringCase_of_decide _ (by decide))⟩

/-! ## The proximity window -/

theorem firstOccurrenceAt_unique (text pat : JsString) (i j : Nat)
    (hi : FirstOccurrenceAt text pat i) (hj : FirstOccurrenceAt text pat j) : i = j := by
  obtain ⟨⟨pre1, post1, he1, hl1⟩, hmin1⟩ := hi
  obtain ⟨⟨pre2, post2, he2, hl2⟩, hmin2⟩ := hj
  have h1 := hmin1 pre2 post2 he2
  have h2 := hmin2 pre1 post1 he1
  omega

theorem indexOf_of_firstOccurrenceAt (text pat : JsString) (i : Nat)
    (h : FirstOccurrenceAt text pat i) : indexOf text pat = some i := by
  obtain ⟨⟨pre, post, he, hl⟩, hmin⟩ := h
  have hne : indexOf text pat ≠ none := by
    rw [ne_eq, indexOf_eq_none_iff]
    exact not_not.mpr ⟨pre, post, he.symm⟩
  obtain ⟨j, hj⟩ := Option.ne_none_iff_exists'.mp hne
  rw [hj, firstOccurrenceAt_unique text pat j i (indexOf_eq_some text pat j hj)
    ⟨⟨pre, post, he, hl⟩, hmin⟩]

theorem windowStart_eq (i : Nat) : (max 0 ((i : Int) - 40)).toNat = i - 40 := by
  omega

theorem HasBracketNumber.mono {a b : JsString} (h : HasBracketNumber a) (hab : a <:+: b) :
    HasBracketNumber b := by
  obtain ⟨pre, ds, post, hds, hall, he⟩ := h
  obtain ⟨l, r, hb⟩ := hab
  exact ⟨l ++ pre, ds, post ++ r, hds, hall, by rw [← hb, he]; simp⟩

theorem dropWhile_append_cons_of_neg (p : CodeUnit → Bool) (x : CodeUnit) (hx : p x = false) :
    ∀ (pre rest : JsString),
      (pre ++ x :: rest).dropWhile p = pre.dropWhile p ++ x :: rest := by
  intro pre rest
  induction pre with
  | nil => simp [List.dropWhile, hx]
  | cons a pre ih =>
    by_cases ha : p a = true
    · simp [List.dropWhile, ha, ih]
    · have ha2 : p a = false := by simpa using ha
      simp [List.dropWhile, ha2]

theorem trim_append_cons_of_neg (front post : JsString) (x y : CodeUnit)
    (hx : isTrimSpace x = false) (hy : isTrimSpace y = false) (mid : JsString) :
    trim (front ++ x :: mid ++ y :: post) =
      front.dropWhile isTrimSpace ++ x :: mid ++ y ::
        (post.reverse.dropWhile isTrimSpace).reverse := by
  unfold trim
  have h1 : (front ++ x :: mid ++ y :: post).dropWhile isTrimSpace =
      front.dropWhile isTrimSpace ++ x :: (mid ++ y :: post) := by
    have := dropWhile_append_cons_of_neg isTrimSpace x hx front (mid ++ y :: post)
    simpa using this
  rw [h1]
  have h2 : (front.dropWhile isTrimSpace ++ x :: (mid ++ y :: post)).reverse =
      post.reverse ++ y :: (mid.reverse ++ x :: (front.dropWhile isTrimSpace).reverse) := by
    simp
  rw [h2, dropWhile_append_cons_of_neg isTrimSpace y hy]
  simp

theorem isDigit_not_trimSpace (d : Nat) (h : isDigit d = true) : isTrimSpace d = false := by
  simp only [isDigit, Bool.and_eq_true, decide_eq_true_eq, CodeUnit] at h
  simp only [isTrimSpace, Bool.or_eq_false_iff, decide_eq_false_iff_not, Bool.and_eq_false_imp,
    decide_eq_true_eq, CodeUnit]
  omega

/-- Trimming keeps a bracketed number. -/
theorem HasBracketNumber.trim {s : JsString} (h : HasBracketNumber s) :
    HasBracketNumber (trim s) := by
  obtain ⟨pre, ds, post, hds, hall, he⟩ := h
  rw [he, trim_append_cons_of_neg pre post 0x5B 0x5D (by decide) (by decide) ds]
  exact ⟨_, ds, _, hds, hall, rfl⟩

/-- The window around the first occurrence of a sentence holds its trimmed text. -/
theorem trim_inside_window (text s : JsString) (i : Nat)
    (h : FirstOccurrenceAt text (trim s) i) :
    trim s <:+: substr text (i - 40) (s.length + 80) := by
  obtain ⟨⟨pre, post, he, hl⟩, _⟩ := h
  have hlen : (trim s).length ≤ s.length := (trim_piece s).length_le
  unfold substr
  have hdrop : text.drop (i - 40) = pre.drop (i - 40) ++ (trim s ++ post) := by
    rw [he, List.append_assoc, List.drop_append_of_le_length (by omega)]
  rw [hdrop]
  have hpl : (pre.drop (i - 40)).length ≤ 40 := by
    rw [List.length_drop]; omega
  have htake : (pre.drop (i - 40) ++ (trim s ++ post)).take (s.length + 80) =
      pre.drop (i - 40) ++ (trim s ++
        post.take (s.length + 80 - (pre.drop (i - 40)).length - (trim s).length)) := by
    rw [List.take_append_eq_append_take, List.take_of_length_le (by omega),
      List.take_append_eq_append_take, List.take_of_length_le (by omega)]
  rw [htake]
  exact List.infix_append' _ _ _

theorem hasReference_of_bracket (host : Host) (p : List Node) (s : JsString)
    (hsup : hasSupReferenceList p = false)
    (hphrase : ¬ ContainsIgnoringCase (host.innerText p) (str "citation needed"))
    (hocc : trim s <:+: host.innerText p) (hb : HasBracketNumber s) :
    hasReferenceInParagraph host p s = true := by
  obtain ⟨pre, post, he, hmin⟩ := exists_first_occurrence _ _ hocc
  have hfirst : FirstOccurrenceAt (host.innerText p) (trim s) pre.length :=
    ⟨⟨pre, post, he, rfl⟩, hmin⟩
  have hinc : includes (toLowerCase (host.innerText p)) (str "citation needed") = false := by
    rw [← Bool.not_eq_true, includes_toLowerCase_citationNeeded]; exact hphrase
  have hwin := (hb.trim.mono (trim_inside_window _ s _ hfirst))
  simp only [hasReferenceInParagraph, hsup, hinc, Bool.false_eq_true, if_false,
    indexOf_of_firstOccurrenceAt _ _ _ hfirst, windowStart_eq, (bracketRegex_test _).mpr hwin,
    if_true]

/-- C4: in a paragraph without a `sup.reference` element whose plain text does
not contain `citation needed`, for every sentence: if its trimmed text does not
occur in the plain text, `hasReferenceInParagraph` is false; otherwise, with
`i` the offset of the first occurrence, it is true iff the piece of the plain
text that starts at `max(0, i - 40)` and has length `sentence length + 80`
contains a `[`, one or more digits and a `]`. In particular a sentence that
occurs in the paragraph, as every sentence segmented from it does, and holds
such a bracketed number is referenced, and so is not flagged. -/
theorem hasReference_window (host : Host) (p : List Node) (s : JsString)
    (hsup : hasSupReferenceList p = false)
    (hphrase : ¬ ContainsIgnoringCase (host.innerText p) (str "citation needed")) :
    (¬ trim s <:+: host.innerText p → hasReferenceInParagraph host p s = false) ∧
    (∀ i, FirstOccurrenceAt (host.innerText p) (trim s) i →
      (hasReferenceInParagraph host p s = true ↔
        HasBracketNumber
          (substr (host.innerText p) (max 0 ((i : Int) - 40)).toNat (s.length + 80)))) ∧
    (trim s <:+: host.innerText p → HasBracketNumber s →
      hasReferenceInParagraph host p s = true ∧
      hasReferenceInParagraph host p (trim s) = true ∧
      isFlagged host p (trim s) = false) ∧
    (∀ s2 ∈ splitSentences (host.innerText p), HasBracketNumber s2 →
      hasReferenceInParagraph host p (trim s2) = true ∧
      isFlagged host p (trim s2) = false) := by
  have hinc : includes (toLowerCase (host.innerText p)) (str "citation needed") = false := by
    rw [← Bool.not_eq_true, includes_toLowerCase_citationNeeded]; exact hphrase
  have hcn : ∀ t, hasCitationNeeded host p t = false := by
    intro t
    have : citationNeededRegex.test true (host.innerText p) = false := by
      rw [← Bool.not_eq_true, citationNeededRegex_test]; exact hphrase
    simp [hasCitationNeeded, this]
  have hpart : ∀ t, trim t <:+: host.innerText p → HasBracketNumber t →
      hasReferenceInParagraph host p (trim t) = true ∧ isFlagged host p (trim t) = false := by
    intro t hocc hb
    have h2 := hasReference_of_bracket host p (trim t) hsup hphrase
      ((trim_piece _).trans hocc) hb.trim
    exact ⟨h2, by simp [isFlagged, h2, hcn]⟩
  refine ⟨?_, ?_, ?_, ?_⟩
  · intro hno
    simp only [hasReferenceInParagraph, hsup, hinc, Bool.false_eq_true, if_false,
      (indexOf_eq_none_iff _ _).mpr hno]
  · intro i hi
    simp only [hasReferenceInParagraph, hsup, hinc, Bool.false_eq_true, if_false,
      indexOf_of_firstOccurrenceAt _ _ _ hi, ← bracketRegex_test]
    split <;> simp_all
  · intro hocc hb
    exact ⟨hasReference_of_bracket host p s hsup hphrase hocc hb, hpart s hocc hb⟩
  · intro s2 hs2 hb
    exact hpart s2 ((trim_piece s2).trans (splitSentences_piece _ _ hs2)) hb

/-- Witness of C4: the paragraph `Revenue grew in 2020 [1].`; its sentence
matches the numeric pattern, is referenced by the `[1]` in its window, and the
scan of the page counts 0. -/
theorem hasReference_window_witness :
    hasSupReferenceList revenueParagraph = false ∧
    ¬ ContainsIgnoringCase (plainHost.innerText revenueParagraph) (str "citation needed") ∧
    splitSentences (plainHost.innerText revenueParagraph) = [str "Revenue grew in 2020 [1]."] ∧
    needsHeuristic (str "Revenue grew in 2020 [1].") = true ∧
    (hasReferenceInParagraph plainHost revenueParagraph (str "Revenue grew in 2020 [1].") = true ∧
      hasReferenceInParagraph plainHost revenueParagraph
        (trim (str "Revenue grew in 2020 [1].")) = true ∧
      isFlagged plainHost revenueParagraph (trim (str "Revenue grew in 2020 [1].")) = false) ∧
    (scanAndHighlight plainHost sampleRand (plainPage [revenueParagraph])).map (·.2) = some 0 :=
  have hphrase : ¬ ContainsIgnoringCase (plainHost.innerText revenueParagraph)
      (str "citation needed") :=
    fun h => absurd ((includes_toLowerCase_citationNeeded _).mpr h) (by decide)
  ⟨by decide, hphrase, by decide, by decide,
    (hasReference_window plainHost revenueParagraph (str "Revenue grew in 2020 [1].")
      (by decide) hphrase).2.2.1
      ((includes_iff _ _).mp (by decide))
      ⟨str "Revenue grew in 2020 ", [0x31], str ".", by decide, by decide, by decide⟩,
    by decide⟩

/-! ## Wrapping a flagged sentence -/

/-- What one replacement does: nothing when the text does not occur, and
otherwise the first occurrence, and only it, becomes the wrapper. -/
theorem wrapFirstOccurrence_spec (html t dataId : JsString) :
    (¬ t <:+: html → wrapFirstOccurrence html t dataId = html) ∧
    ∀ pre post, html = pre ++ t ++ post →
      (∀ pre2 post2, html = pre2 ++ t ++ post2 → pre.length ≤ pre2.length) →
      wrapFirstOccurrence html t dataId = pre ++ sentenceWrapper dataId t ++ post := by
  constructor
  · intro hno
    simp only [wrapFirstOccurrence, (indexOf_eq_none_iff _ _).mpr hno]
  · intro pre post he hmin
    have hidx := indexOf_of_firstOccurrenceAt html t pre.length ⟨⟨pre, post, he, rfl⟩, hmin⟩
    simp only [wrapFirstOccurrence, hidx]
    have h1 : html.take pre.length = pre := by
      rw [he, List.append_assoc, List.take_left']
      rfl
    have h2 : html.drop (pre.length + t.length) = post := by
      rw [he, ← List.length_append, List.drop_left']
      rfl
    rw [h1, h2]

/-- On a sentence without `$` the replacement of the script is the wrapping of
the first literal occurrence. -/
theorem replaceFirst_eq_wrapFirstOccurrence (html t : JsString) (digits : List (Fin 36))
    (h : 0x24 ∉ t) :
    (Re.lit t).replaceFirst false html (sentenceReplacement (makeDataId digits) t) =
      wrapFirstOccurrence html t (makeDataId digits) := by
  by_cases hocc : t <:+: html
  · obtain ⟨pre, post, he, hmin⟩ := exists_first_occurrence t html hocc
    rw [((wrapFirstOccurrence_spec html t _).2 pre post he hmin)]
    simp only [Re.replaceFirst, search_lit_some t html pre post none he hmin]
    rw [getSubstitution_of_no_dollar _ _ _ _ (no_dollar_in_replacement _ _ h)]
    rfl
  · rw [(wrapFirstOccurrence_spec html t _).1 hocc]
    simp only [Re.replaceFirst, search_lit_none _ _ _ hocc]

theorem scanSentences_eq (host : Host) (rand : Nat → List (Fin 36)) (p : List Node) :
    ∀ (ss : List JsString) (st : JsString × Nat),
      (∀ t ∈ (ss.map trim).filter (fun t => t ≠ [] && isFlagged host p t), 0x24 ∉ t) →
      scanSentences host rand p st ss =
        some (wrapSentences rand st.2 st.1
            ((ss.map trim).filter fun t => t ≠ [] && isFlagged host p t),
          st.2 + ((ss.map trim).filter fun t => t ≠ [] && isFlagged host p t).length) := by
  intro ss
  induction ss with
  | nil => intro st _; simp [scanSentences, wrapSentences]
  | cons s ss ih =>
    intro st hd
    by_cases hf : trim s ≠ [] ∧ isFlagged host p (trim s) = true
    · obtain ⟨hne, hflag⟩ := hf
      have hkeep : (fun t => decide (t ≠ []) && isFlagged host p t) (trim s) = true := by
        simp [hne, hflag]
      rw [List.map_cons, List.filter_cons_of_pos
        (p := fun t => decide (t ≠ []) && isFlagged host p t) hkeep] at hd ⊢
      have hdol : 0x24 ∉ trim s := hd (trim s) (by simp)
      have hstep := scanSentence_flagged host rand p st.1 st.2 s hne hflag
      rw [replaceFirst_eq_wrapFirstOccurrence _ _ _ hdol] at hstep
      simp only [scanSentences, hstep]
      rw [ih _ (fun t ht => hd t (List.mem_cons_of_mem _ ht))]
      simp only [wrapSentences, List.length_cons]
      congr 2
      omega
    · have hdrop : ¬ (fun t => decide (t ≠ []) && isFlagged host p t) (trim s) = true := by
        intro h
        simp only [Bool.and_eq_true, decide_eq_true_eq] at h
        exact hf h
      rw [List.map_cons, List.filter_cons_of_neg
        (p := fun t => decide (t ≠ []) && isFlagged host p t) hdrop] at hd ⊢
      have hstep := scanSentence_not_flagged host rand p st s (by
        by_cases hne : trim s = []
        · exact Or.inl hne
        · right
          have : ¬ isFlagged host p (trim s) = true := fun h => hf ⟨hne, h⟩
          simpa using this)
      simp only [scanSentences, hstep]
      exact ih st hd

theorem scanParagraph_eq (host : Host) (rand : Nat → List (Fin 36)) (n : Nat) (p : List Node)
    (hd : ∀ t ∈ flaggedSentences host p, 0x24 ∉ t) :
    scanParagraph host rand n p =
      some (host.setInnerHTML (markupAfterScan host rand n p),
        n + (flaggedSentences host p).length) := by
  simp only [scanParagraph, markupAfterScan, markupWithMarkers]
  split
  · rename_i h0
    have : splitSentences (host.innerText p) = [] := List.length_eq_zero.mp h0
    simp [flaggedSentences, this, wrapSentences]
  · rw [scanSentences_eq host rand p _ _ hd]
    rfl

theorem scanParagraphs_eq (host : Host) (rand : Nat → List (Fin 36)) :
    ∀ (ps : List (List Node)) (n : Nat),
      (∀ p ∈ ps, ∀ t ∈ flaggedSentences host p, 0x24 ∉ t) →
      scanParagraphs host rand n ps =
        some (paragraphsAfterScan host rand n ps, n + flaggedPairs host ps) := by
  intro ps
  induction ps with
  | nil => intro n _; simp [scanParagraphs, paragraphsAfterScan, flaggedPairs]
  | cons p ps ih =>
    intro n hd
    simp only [scanParagraphs, scanParagraph_eq host rand n p (hd p (by simp)),
      ih _ (fun q hq => hd q (List.mem_cons_of_mem _ hq)), Option.map_some',
      paragraphsAfterScan, flaggedPairs, List.map_cons, List.sum_cons]
    congr 2
    omega

theorem wrapSentences_append (rand : Nat → List (Fin 36)) :
    ∀ (a b : List JsString) (n : Nat) (html : JsString),
      wrapSentences rand n html (a ++ b) =
        wrapSentences rand (n + a.length) (wrapSentences rand n html a) b := by
  intro a
  induction a with
  | nil => intro b n html; rfl
  | cons t a ih =>
    intro b n html
    rw [List.cons_append, wrapSentences, wrapSentences, ih, List.length_cons]
    congr 1
    omega

/-- A wrapper stays in the markup as long as no later replacement lands inside it. -/
theorem wrapper_stays (rand : Nat → List (Fin 36)) (w : JsString) :
    ∀ (ts : List JsString) (n : Nat) (html : JsString),
      w <:+: html → StaysClear rand w n html ts → w <:+: wrapSentences rand n html ts := by
  intro ts
  induction ts with
  | nil => intro n html h _; exact h
  | cons t ts ih =>
    intro n html h hclear
    obtain ⟨hfirst, hrest⟩ := hclear
    apply ih _ _ _ hrest
    simp only [wrapFirstOccurrence]
    cases hidx : indexOf html t with
    | none => exact h
    | some i =>
      obtain ⟨a, b, he, hpos⟩ := hfirst i hidx
      simp only
      rcases hpos with hpos | hpos
      · have hdrop : html.drop (i + t.length) = a.drop (i + t.length) ++ (w ++ b) := by
          rw [he, List.append_assoc, List.drop_append_of_le_length hpos]
        rw [hdrop]
        exact ⟨html.take i ++ sentenceWrapper (makeDataId (rand n)) t ++ a.drop (i + t.length), b,
          by simp⟩
      · have htake : html.take i = a ++ w ++ b.take (i - (a.length + w.length)) := by
          rw [he, List.take_append_eq_append_take, List.take_of_length_le
            (by simp only [List.length_append]; omega)]
          simp only [List.length_append]
        rw [htake]
        exact ⟨a, b.take (i - (a.length + w.length)) ++
          sentenceWrapper (makeDataId (rand n)) t ++ html.drop (i + t.length), by simp⟩

/-- Counterexample to C9, in two parts. In the paragraph
`<b>Studies</b> show that 42% of users agree.` the sentence
`Studies show that 42% of users agree.` is flagged and counted, but its text
does not occur in the markup, so the scan writes the markup back unchanged,
without any highlight. In the paragraph `Water is wet. [citation needed]. span`
the three sentences are flagged, none has a `$`, and the text of the first one
occurs in the markup; it is wrapped in its turn, but the replacement for the
later sentence `span` lands in the tag of that wrapper, so the markup written
back does not contain the wrapper and, after the scan, the paragraph has no
highlight whose content is `Water is wet.`. -/
theorem flagged_sentence_not_wrapped :
    (flaggedSentences plainHost boldParagraph = [str "Studies show that 42% of users agree."] ∧
      plainHost.getInnerHTML boldParagraph =
        str "<b>Studies</b> show that 42% of users agree." ∧
      (scanAndHighlight plainHost sampleRand (plainPage [boldParagraph])).map
          (fun r => (r.1.paragraphs.map plainHost.getInnerHTML,
            r.1.paragraphs.map highlightTextsList, r.2)) =
        some ([str "<b>Studies</b> show that 42% of users agree."], [[]], 1)) ∧
    (flaggedSentences plainHost spanParagraph =
        [str "Water is wet.", str "[citation needed].", str "span"] ∧
      includes (markupWithMarkers plainHost spanParagraph) (str "Water is wet.") = true ∧
      wrapFirstOccurrence (markupWithMarkers plainHost spanParagraph) (str "Water is wet.")
          (makeDataId (sampleRand 0)) =
        sentenceWrapper (makeDataId (sampleRand 0)) (str "Water is wet.") ++
          str " <span class=\"wsh-highlight\" title=\"Missing citation\">[citation needed]</span>. span" ∧
      includes (markupAfterScan plainHost sampleRand 0 spanParagraph)
          (sentenceWrapper (makeDataId (sampleRand 0)) (str "Water is wet.")) = false ∧
      (scanAndHighlight plainHost sampleRand (plainPage [spanParagraph])).map
          (fun r => (r.1.paragraphs.map highlightTextsList, r.2)) =
        some ([[str "span", str "[citation needed]"]], 3)) := by
  refine ⟨⟨?_, ?_, ?_⟩, ?_, ?_, ?_, ?_, ?_⟩
  · decide
  · decide
  · decide
  · decide
  · decide
  · decide
  · decide
  · decide

/-- C9, amended: the pattern built from a sentence is the literal pattern of
its text, never a regular expression of its own. On a page whose flagged
sentences have no `$`, `scanAndHighlight` returns and leaves in each paragraph
what the browser parses from this markup (with the pointer cursor set on the
highlights): the markup of the paragraph with the markers wrapped, in which the
flagged sentences are taken in order and, for each one whose trimmed text
occurs in the markup built so far, the first literal occurrence there, and only
it, is replaced by a highlight span whose content is that text; a flagged
sentence whose text does not occur there gets no span. The span of a flagged
sentence is in the markup written back provided the text occurred in its turn
and no replacement for a later flagged sentence of the paragraph lands inside
that span. -/
theorem scanAndHighlight_wraps_first_occurrence (host : Host) (rand : Nat → List (Fin 36))
    (d : Doc)
    (hdollar : ∀ p ∈ (clearHighlights d).paragraphs, ∀ t ∈ flaggedSentences host p, 0x24 ∉ t) :
    (∀ t, RegExp (escapeRegExp t) = some (Re.lit t)) ∧
    (∃ d2 n, scanAndHighlight host rand d = some (d2, n) ∧
      d2.paragraphs =
        (paragraphsAfterScan host rand 0 (clearHighlights d).paragraphs).map
          (setPointerList host)) ∧
    (∀ html t dataId,
      (¬ t <:+: html → wrapFirstOccurrence html t dataId = html) ∧
      ∀ pre post, html = pre ++ t ++ post →
        (∀ pre2 post2, html = pre2 ++ t ++ post2 → pre.length ≤ pre2.length) →
        wrapFirstOccurrence html t dataId = pre ++ sentenceWrapper dataId t ++ post) ∧
    (∀ p n before t rest pre post,
      flaggedSentences host p = before ++ t :: rest →
      wrapSentences rand n (markupWithMarkers host p) before = pre ++ t ++ post →
      (∀ pre2 post2, wrapSentences rand n (markupWithMarkers host p) before =
        pre2 ++ t ++ post2 → pre.length ≤ pre2.length) →
      StaysClear rand (sentenceWrapper (makeDataId (rand (n + before.length))) t)
        (n + before.length + 1)
        (pre ++ sentenceWrapper (makeDataId (rand (n + before.length))) t ++ post) rest →
      sentenceWrapper (makeDataId (rand (n + before.length))) t <:+:
        markupAfterScan host rand n p) := by
  refine ⟨RegExp_escapeRegExp, ?_, wrapFirstOccurrence_spec, ?_⟩
  · have hps := scanParagraphs_eq host rand (clearHighlights d).paragraphs 0 hdollar
    simp only [scanAndHighlight, hps]
    split
    · exact ⟨_, _, rfl, rfl⟩
    · exact ⟨_, _, rfl, rfl⟩
  · intro p n before t rest pre post hfl he hmin hclear
    rw [markupAfterScan, hfl, wrapSentences_append, wrapSentences,
      (wrapFirstOccurrence_spec _ t _).2 pre post he hmin]
    exact wrapper_stays rand _ rest _ _ (List.infix_append _ _ _) hclear

/-- Witness of the amended C9: on the page with the paragraph
`Studies show that 42% of users agree. This is fine.` the flagged sentence is
wrapped where it stands and the paragraph has the one highlight; in the
paragraph `Studies show that 42% of users agree. The 2019 survey found more.`
the replacement for the second sentence lands after the span of the first,
which is in the markup written back. -/
theorem scanAndHighlight_wraps_first_occurrence_witness :
    (∀ p ∈ (clearHighlights (plainPage [studiesParagraph])).paragraphs,
      ∀ t ∈ flaggedSentences plainHost p, 0x24 ∉ t) ∧
    (∃ d2 n, scanAndHighlight plainHost sampleRand (plainPage [studiesParagraph]) =
        some (d2, n) ∧
      d2.paragraphs =
        (paragraphsAfterScan plainHost sampleRand 0
          (clearHighlights (plainPage [studiesParagraph])).paragraphs).map
          (setPointerList plainHost)) ∧
    markupAfterScan plainHost sampleRand 0 studiesParagraph =
      sentenceWrapper (makeDataId (sampleRand 0)) (str "Studies show that 42% of users agree.") ++
        str " This is fine." ∧
    (scanAndHighlight plainHost sampleRand (plainPage [studiesParagraph])).map
        (fun r => r.1.paragraphs.map highlightTextsList) =
      some [[str "Studies show that 42% of users agree."]] ∧
    flaggedSentences plainHost twoSentencesParagraph =
      [] ++ str "Studies show that 42% of users agree." :: [str "The 2019 survey found more."] ∧
    sentenceWrapper (makeDataId (sampleRand (0 + ([] : List JsString).length)))
        (str "Studies show that 42% of users agree.") <:+:
      markupAfterScan plainHost sampleRand 0 twoSentencesParagraph :=
  have t := scanAndHighlight_wraps_first_occurrence plainHost sampleRand
    (plainPage [studiesParagraph]) (by decide)
  have hidx : indexOf
      ([] ++ sentenceWrapper (makeDataId (sampleRand (0 + ([] : List JsString).length)))
        (str "Studies show that 42% of users agree.") ++ str " The 2019 survey found more.")
      (str "The 2019 survey found more.") = some 131 := by decide
  ⟨by decide, t.2.1, by decide, by decide, by decide,
    t.2.2.2 twoSentencesParagraph 0 [] (str "Studies show that 42% of users agree.")
      [str "The 2019 survey found more."] [] (str " The 2019 survey found more.")
      (by decide) (by decide) (fun _ _ _ => Nat.zero_le _)
      ⟨fun i hi => ⟨[], str " The 2019 survey found more.", rfl,
          Or.inr (by
            rw [hidx] at hi
            injection hi with hi
            subst hi
            decide)⟩,
        trivial⟩⟩

/-! ## What `clearHighlights` leaves behind -/

/-- C6, the defect: `clearHighlights` removes the highlights and the tooltips
only. After any scan that returned a count greater than 0, `clearHighlights`
leaves the banner and the body margin of 50px on the page. On the page with
the paragraph `Studies show that 42% of users agree. This is fine.` the scan
returns 1 and puts up the banner and the floating indicator, and after
`clearHighlights` the highlight is gone but the banner, the indicator and the
margin are still there. -/
theorem clearHighlights_keeps_banner :
    (∀ (host : Host) (rand : Nat → List (Fin 36)) (d d2 : Doc) (n : Nat),
      scanAndHighlight host rand d = some (d2, n) → 0 < n →
        (clearHighlights d2).paragraphs.any hasHighlightList = false ∧
        (clearHighlights d2).tooltips = 0 ∧
        (clearHighlights d2).banner = some (bannerHTML d.hostname n) ∧
        (clearHighlights d2).indicator = d2.indicator ∧
        (clearHighlights d2).marginTop = str "50px") ∧
    (scanAndHighlight plainHost sampleRand (plainPage [studiesParagraph])).map
        (fun r => (r.2, r.1.paragraphs.any hasHighlightList,
          (clearHighlights r.1).paragraphs.any hasHighlightList,
          (clearHighlights r.1).tooltips)) =
      some (1, true, false, 0) ∧
    (scanAndHighlight plainHost sampleRand (plainPage [studiesParagraph])).map
        (fun r => ((clearHighlights r.1).banner, (clearHighlights r.1).indicator,
          (clearHighlights r.1).marginTop)) =
      some (some (bannerHTML (str "example.org") 1), true, str "50px") := by
  refine ⟨?_, by decide, by decide⟩
  intro host rand d d2 n h hn
  obtain ⟨h1, h2, h3, h4, h5⟩ := clearHighlights_effect d2
  obtain ⟨hb, hm⟩ := scanAndHighlight_banner host rand d d2 n h hn
  exact ⟨h1, h2, by rw [h3, hb], h4, by rw [h5, hm]⟩

/-! ## `$` in a flagged sentence -/

/-- C7, the defect: the page with the paragraph
`Tickets cost $$$ according to the survey.` has no highlight; after
`scanAndHighlight` and `clearHighlights` the plain text of the paragraph is
`Tickets cost $$ according to the survey.`: a `$` is lost, because the
sentence is used as a replacement pattern, where `$$` stands for one `$`. -/
theorem scan_then_clear_loses_dollar :
    (plainPage [ticketsParagraph]).paragraphs.any hasHighlightList = false ∧
    (plainPage [ticketsParagraph]).paragraphs.map plainHost.innerText =
      [str "Tickets cost $$$ according to the survey."] ∧
    (scanAndHighlight plainHost sampleRand (plainPage [ticketsParagraph])).map
        (fun r => (r.1.paragraphs.map plainHost.getInnerHTML,
          (clearHighlights r.1).paragraphs.map plainHost.innerText)) =
      some ([str ("<span class=\"wsh-highlight\" data-wsh-id=\"wsh-abc1230\" " ++
                "title=\"Click to search sources\" style=\"cursor: pointer;\">" ++
                "Tickets cost $$ according to the survey.</span>")],
            [str "Tickets cost $$ according to the survey."]) := by
  decide

/-- C8, the defect: on the page with the paragraph
`Revenue in US$'000 was 5400 in 2020. The 2019 survey found more.` the first
scan returns 2 and the second scan returns 3, with other sentence texts: the
sentence is used as a replacement pattern, where a `$` followed by an
apostrophe stands for the text after the match, so the first scan changes the
text of the paragraph. -/
theorem rescan_changes_count :
    (scanAndHighlight plainHost sampleRand (plainPage [thousandsParagraph])).map
        (fun r => (r.2, (clearHighlights r.1).paragraphs.map (flaggedSentences plainHost))) =
      some (2, [[str "Revenue in US The 2019 survey found more.",
                 str "000 was 5400 in 2020.", str "The 2019 survey found more."]]) ∧
    (clearHighlights (plainPage [thousandsParagraph])).paragraphs.map
        (flaggedSentences plainHost) =
      [[str "Revenue in US$'000 was 5400 in 2020.", str "The 2019 survey found more."]] ∧
    ((scanAndHighlight plainHost sampleRand (plainPage [thousandsParagraph])).bind
        fun r => (scanAndHighlight plainHost sampleRand r.1).map (·.2)) = some 3 := by
  decide

/-! ## Sentence segmentation -/

/-- A greedy unbounded quantified class first tries the whole run of the class. -/
theorem repEnds_cls_head (ic : Bool) (p : CodeUnit → Bool) (ds : JsString) :
    ∀ fuel lo prev rest, ds.length < fuel → lo ≤ ds.length → (∀ d ∈ ds, p d = true) →
      (∀ u r, rest = u :: r → p u = false) →
      ∃ tail, repEnds ((Re.cls p).ends ic) fuel lo none (prev, ds ++ rest) =
        (prevAfter prev ds, rest) :: tail := by
  induction ds with
  | nil =>
    intro fuel lo prev rest hf hlo _ hrest
    cases fuel with
    | zero => omega
    | succ fuel =>
      have hlo0 : lo = 0 := by simpa using hlo
      subst hlo0
      have hstep : (Re.cls p).ends ic (prev, rest) = [] := by
        cases rest with
        | nil => simp [Re.ends]
        | cons u r => exact cls_ends_nil ic p prev u r (hrest u r rfl)
      exact ⟨[], by simp [repEnds, hstep, prevAfter]⟩
  | cons d ds ih =>
    intro fuel lo prev rest hf hlo hall hrest
    cases fuel with
    | zero => omega
    | succ fuel =>
      have hd := hall d (by simp)
      obtain ⟨tail, hrec⟩ := ih fuel (lo - 1) (some d) rest
        (by simp only [List.length_cons] at hf; omega)
        (by simp only [List.length_cons] at hlo; omega)
        (fun e he => hall e (by simp [he])) hrest
      have hiter : (((Re.cls p).ends ic (prev, d :: ds ++ rest)).flatMap fun z =>
            if lo = 0 ∧ z.2.length = (prev, d :: ds ++ rest).2.length then []
            else repEnds ((Re.cls p).ends ic) fuel (lo - 1) (Option.map (· - 1) none) z) =
          (prevAfter prev (d :: ds), rest) :: tail := by
        rw [List.cons_append, cls_ends_cons ic p prev d _ hd]
        simp only [List.flatMap_cons, List.flatMap_nil, List.append_nil, List.length_cons]
        rw [if_neg (by omega)]
        exact hrec
      simp only [repEnds]
      rw [if_neg (by simp), hiter]
      split
      · exact ⟨tail ++ [(prev, d :: ds ++ rest)], rfl⟩
      · exact ⟨tail, rfl⟩

theorem optionalTerminator_ends_cons (prev : Option CodeUnit) (t : CodeUnit) (r : JsString)
    (ht : isTerminator t = true) :
    ∃ tail, (Re.rep (.cls isTerminator) 0 (some 1)).ends false (prev, t :: r) =
      (some t, r) :: tail := by
  rw [Re.ends_rep]
  simp only [repEnds, List.length_cons, cls_ends_cons false isTerminator prev t r ht]
  exact ⟨[(prev, t :: r)], by simp⟩

theorem optionalTerminator_ends_other (prev : Option CodeUnit) (s : JsString)
    (hs : ∀ u r, s = u :: r → isTerminator u = false) :
    (Re.rep (.cls isTerminator) 0 (some 1)).ends false (prev, s) = [(prev, s)] := by
  rw [Re.ends_rep]
  have hstep : (Re.cls isTerminator).ends false (prev, s) = [] := by
    cases s with
    | nil => simp [Re.ends]
    | cons u r => exact cls_ends_nil false isTerminator prev u r (hs u r rfl)
  simp [repEnds, hstep]

theorem sentenceRun_ends_nil (prev : Option CodeUnit) (s : JsString)
    (hs : ∀ u r, s = u :: r → isTerminator u = true) :
    (Re.rep (.cls fun u => !isTerminator u) 1 none).ends false (prev, s) = [] := by
  rw [Re.ends_rep]
  have hstep : (Re.cls fun u => !isTerminator u).ends false (prev, s) = [] := by
    cases s with
    | nil => simp [Re.ends]
    | cons u r => exact cls_ends_nil false _ prev u r (by simp [hs u r rfl])
  simp [repEnds, hstep]

/-- Nothing of the sentence pattern starts at a terminator or at the end of the text. -/
theorem sentenceRegex_ends_nil (prev : Option CodeUnit) (s : JsString)
    (hs : ∀ u r, s = u :: r → isTerminator u = true) :
    sentenceRegex.ends false (prev, s) = [] := by
  rw [sentenceRegex, Re.ends_cat, sentenceRun_ends_nil prev s hs]
  rfl

/-- The first match of the sentence pattern at a run of non-terminators is the
whole run with the terminator after it, if there is one. -/
theorem sentenceRegex_ends_run (prev : Option CodeUnit) (run after : JsString)
    (hne : run ≠ []) (hrun : ∀ u ∈ run, isTerminator u = false)
    (hafter : ∀ u r, after = u :: r → isTerminator u = true) :
    ∃ tail, sentenceRegex.ends false (prev, run ++ after) =
      (match after with
        | [] => (prevAfter prev run, [])
        | t :: r => (some t, r)) :: tail := by
  obtain ⟨tail1, h1⟩ := repEnds_cls_head false (fun u => !isTerminator u) run
    (1 + (run ++ after).length + 1) 1 prev after
    (by simp only [List.length_append]; omega)
    (by cases run with
      | nil => exact absurd rfl hne
      | cons a run => simp)
    (fun d hd => by simp [hrun d hd])
    (fun u r hu => by simp [hafter u r hu])
  rw [sentenceRegex, Re.ends_cat, Re.ends_rep]
  simp only at h1 ⊢
  rw [h1, List.flatMap_cons]
  cases after with
  | nil =>
    rw [optionalTerminator_ends_other _ [] (fun u r h => by simp at h)]
    exact ⟨_, rfl⟩
  | cons t r =>
    obtain ⟨tail2, h2⟩ := optionalTerminator_ends_cons (prevAfter prev run) t r (hafter t r rfl)
    rw [h2]
    exact ⟨_, rfl⟩

theorem sentencesFrom_run (run : JsString) : ∀ (cur rest : JsString),
    (∀ u ∈ run, isTerminator u = false) →
    sentencesFrom cur (run ++ rest) = sentencesFrom (run.reverse ++ cur) rest := by
  induction run with
  | nil => intro cur rest _; rfl
  | cons a run ih =>
    intro cur rest h
    have ha := h a (by simp)
    rw [List.cons_append, sentencesFrom, if_neg (by simp [ha]),
      ih (a :: cur) rest (fun u hu => h u (by simp [hu]))]
    simp

/-- When nothing matches at the first position, the matched texts are those found from the next position. -/
theorem allMatches_skip_matched (ic : Bool) (re : Re) (fuel : Nat) (prev : Option CodeUnit)
    (u : CodeUnit) (rest : JsString) (h : re.ends ic (prev, u :: rest) = []) :
    (re.allMatches ic (fuel + 1) prev (u :: rest)).map (·.matched) =
      (re.allMatches ic (fuel + 1) (some u) rest).map (·.matched) := by
  simp only [Re.allMatches, Re.search, h]
  cases hs : re.search ic (some u) rest with
  | none => simp
  | some m =>
    simp only [Option.map_some']
    by_cases hm : m.matched = []
    · simp only [hm, if_true]
      cases ha : m.after.2 with
      | nil => simp [hm]
      | cons v r2 =>
        simp only
        cases hr : re.allMatches ic fuel (some v) r2 with
        | nil => simp [hm]
        | cons m2 ms => simp [hm]
    · simp [hm]

theorem takeWhile_append_dropWhile_terminator (s : JsString) :
    (∀ u ∈ s.takeWhile (fun u => !isTerminator u), isTerminator u = false) ∧
    (∀ u r, s.dropWhile (fun u => !isTerminator u) = u :: r → isTerminator u = true) := by
  constructor
  · intro u hu
    have := List.mem_takeWhile_imp hu
    simpa using this
  · intro u r h
    have := List.head_dropWhile_not (fun u => !isTerminator u) s (by rw [h]; simp)
    simp only [h, List.head_cons] at this
    simpa using this

/-- The matches of the sentence pattern are the sentences read in one pass. -/
theorem sentenceRegex_allMatches : ∀ (n : Nat) (s : JsString), s.length ≤ n →
    ∀ (fuel : Nat) (prev : Option CodeUnit), s.length < fuel →
      (sentenceRegex.allMatches false fuel prev s).map (·.matched) = sentencesFrom [] s := by
  intro n
  induction n with
  | zero =>
    intro s hs fuel prev hf
    have : s = [] := List.length_eq_zero.mp (Nat.le_zero.mp hs)
    subst this
    cases fuel with
    | zero => simp at hf
    | succ fuel =>
      simp [Re.allMatches, Re.search,
        sentenceRegex_ends_nil prev [] (fun u r h => by simp at h), sentencesFrom]
  | succ n ih =>
    intro s hs fuel prev hf
    cases fuel with
    | zero => omega
    | succ fuel =>
      cases s with
      | nil =>
        simp [Re.allMatches, Re.search,
          sentenceRegex_ends_nil prev [] (fun u r h => by simp at h), sentencesFrom]
      | cons u rest =>
        simp only [List.length_cons] at hs hf
        by_cases hu : isTerminator u = true
        · rw [allMatches_skip_matched false _ fuel prev u rest
            (sentenceRegex_ends_nil prev (u :: rest) (fun v r h => by
              simp only [List.cons.injEq] at h; rw [← h.1]; exact hu))]
          rw [ih rest (by omega) (fuel + 1) (some u) (by omega)]
          simp [sentencesFrom, hu]
        · have hu2 : isTerminator u = false := by simpa using hu
          obtain ⟨hrun, hafter⟩ := takeWhile_append_dropWhile_terminator (u :: rest)
          have hsplit : u :: rest = (u :: rest).takeWhile (fun u => !isTerminator u) ++
              (u :: rest).dropWhile (fun u => !isTerminator u) :=
            (List.takeWhile_append_dropWhile _ _).symm
          have hrunne : (u :: rest).takeWhile (fun u => !isTerminator u) ≠ [] := by
            simp [List.takeWhile, hu2]
          generalize hr : (u :: rest).takeWhile (fun u => !isTerminator u) = run at *
          generalize ha : (u :: rest).dropWhile (fun u => !isTerminator u) = after at *
          obtain ⟨tail, hends⟩ := sentenceRegex_ends_run prev run after hrunne hrun hafter
          rw [← hsplit] at hends
          have hlen : run.length + after.length = rest.length + 1 := by
            have := congrArg List.length hsplit
            simp only [List.length_cons, List.length_append] at this
            omega
          have hrunpos : 0 < run.length := List.length_pos.mpr hrunne
          rw [show sentencesFrom [] (u :: rest) = sentencesFrom (run.reverse ++ []) after from by
            rw [hsplit]; exact sentencesFrom_run run [] after hrun]
          cases after with
          | nil =>
            simp only at hends
            have hmatched : (u :: rest).take ((u :: rest).length - 0) = run := by
              rw [hsplit]; simp
            simp only [Re.allMatches, Re.search, hends, List.length_nil, hmatched,
              if_neg hrunne, List.map_cons, sentencesFrom, List.append_nil,
              List.reverse_eq_nil_iff, List.reverse_reverse]
            cases fuel with
            | zero => simp [Re.allMatches]
            | succ fuel =>
              simp [Re.allMatches, Re.search,
                sentenceRegex_ends_nil _ [] (fun u r h => by simp at h)]
          | cons t r =>
            simp only at hends
            simp only [List.length_cons] at hlen
            have hmatched : (u :: rest).take ((u :: rest).length - r.length) = run ++ [t] := by
              rw [hsplit]
              have : (run ++ t :: r).length - r.length = (run ++ [t]).length := by
                simp only [List.length_append, List.length_cons, List.length_nil]; omega
              rw [this, show run ++ t :: r = (run ++ [t]) ++ r from by simp, List.take_left']
              rfl
            have ht := hafter t r rfl
            simp only [Re.allMatches, Re.search, hends, hmatched, List.map_cons]
            rw [if_neg (by simp)]
            simp only [List.map_cons]
            rw [ih r (by omega) fuel (some t) (by omega)]
            simp [sentencesFrom, ht, hrunne]

/-- `splitSentences` segments the text into the sentences read in one pass:
maximal runs without `.`, `!`, `?`, each with the terminator that follows it. -/
theorem splitSentences_eq (text : JsString) : splitSentences text = sentencesFrom [] text :=
  sentenceRegex_allMatches text.length text (le_refl _) (text.length + 1) none (by omega)

end Wsh
